import Mathlib

/-!
Verification development for the `filesync` directory-mirroring package.

The development embeds the two core modules (`diff.py`, the Diff Engine, and
`sync.py`, the Sync Executor) as executable Lean definitions over a model of a
POSIX-like filesystem tree:

* machine paths are a root marker (source root / destination root / scratch
  temporary directory) together with a list of clean path segments, so that
  `os.path.normpath` and `os.path.join` are the identity and list append;
* modification times are rationals, sizes are naturals;
* Python exceptions are modelled with `Except`;
* recursion of the diff engine over two directory trees is fuel-indexed, with
  the public entry point supplying enough fuel for the whole comparison;
* the semantics of a compiled regular-expression search is an explicit
  function parameter `research`; in literal mode (`regexfilters = False`) the
  code escapes the pattern before compiling, which makes the search a plain
  substring search, modelled directly.

Mode bits, symlinks and hard errors of `os.stat` on inaccessible files are not
modelled; per-item operations of the executor fail exactly when their
preconditions on the tree fail, which is what the claims about "successful"
runs quantify over.
-/

set_option maxHeartbeats 1000000

namespace Filesync

/-- Which root a full path lives under: the source root, the destination root
or the scratch temporary directory used for null comparisons. -/
inductive Side where
  | src
  | dst
  | tmp
deriving DecidableEq, Repr

/-- A full filesystem path: a root marker plus the path segments below that
root.  All segments are clean names, so `os.path.normpath` is the identity and
`os.path.join` is list append. -/
structure FPath where
  side : Side
  segs : List String
deriving DecidableEq, Repr

mutual
/-- A filesystem node: a regular file (with `st_mtime` and `st_size`) or a
directory (with `st_mtime`, `st_size` and its named children). -/
inductive FSTree where
  | file (mtime : ℚ) (size : ℕ) : FSTree
  | dir (mtime : ℚ) (size : ℕ) (children : FSList) : FSTree

/-- The association list of named children of a directory. -/
inductive FSList where
  | nil : FSList
  | cons (name : String) (tree : FSTree) (rest : FSList) : FSList
end

deriving instance DecidableEq for FSTree
deriving instance DecidableEq for FSList
deriving instance Repr for FSTree
deriving instance Repr for FSList

/-- The empty directory (also the model of the scratch temporary directory). -/
def emptyDir : FSTree := .dir 0 0 .nil

/-- Child lookup by name, `os.listdir`-style resolution one level down. -/
def FSList.lookup : FSList → String → Option FSTree
  | .nil, _ => none
  | .cons n t r, m => if n = m then some t else r.lookup m

/-- The list of child names of a directory. -/
def FSList.names : FSList → List String
  | .nil => []
  | .cons n _ r => n :: r.names

/-- Replace the child `m` (or append it if absent). -/
def FSList.set : FSList → String → FSTree → FSList
  | .nil, m, u => .cons m u .nil
  | .cons n t r, m, u => if n = m then .cons n u r else .cons n t (r.set m u)

/-- Delete the child `m` if present. -/
def FSList.del : FSList → String → FSList
  | .nil, _ => .nil
  | .cons n t r, m => if n = m then r else .cons n t (r.del m)

mutual
/-- Number of nodes of a tree, used to bound the recursion depth of the diff
engine. -/
def FSTree.size : FSTree → ℕ
  | .file _ _ => 1
  | .dir _ _ cs => cs.size + 1

/-- Total number of nodes of a list of children. -/
def FSList.size : FSList → ℕ
  | .nil => 0
  | .cons _ t r => t.size + r.size
end

/-- A name is clean when it is a single genuine path component: nonempty, no
separators, not one of the two special entries. -/
def cleanName (n : String) : Bool :=
  !(n = "") && !(n.data.contains '/') && !(n.data.contains '\\') &&
    !(n = ".") && !(n = "..")

mutual
/-- Well-formedness of a tree: all directories are well-formed child lists. -/
def FSTree.wfb : FSTree → Bool
  | .file _ _ => true
  | .dir _ _ cs => cs.wfb

/-- Well-formedness of a child list: clean and pairwise distinct names, with
well-formed subtrees. -/
def FSList.wfb : FSList → Bool
  | .nil => true
  | .cons n t r => cleanName n && !(r.names.contains n) && t.wfb && r.wfb
end

/-- Resolve a relative segment path inside a tree (the model of `os.stat` /
`os.path.exists` below one root). -/
def resolvePath : List String → FSTree → Option FSTree
  | [], t => some t
  | _ :: _, .file _ _ => none
  | n :: r, .dir _ _ cs =>
    match cs.lookup n with
    | some t => resolvePath r t
    | none => none

/-- The `st_mtime` of a node. -/
def FSTree.mtime : FSTree → ℚ
  | .file mt _ => mt
  | .dir mt _ _ => mt

/-- The `st_size` of a node. -/
def FSTree.sizeAttr : FSTree → ℕ
  | .file _ sz => sz
  | .dir _ sz _ => sz

/-- Whether a node is a directory (`utils._isdir` on an existing path). -/
def FSTree.isDirB : FSTree → Bool
  | .file _ _ => false
  | .dir _ _ _ => true

/-- `os.path.isdir` relative to a tree root. -/
def isDirAtB (t : FSTree) (p : List String) : Bool :=
  match resolvePath p t with
  | some (.dir _ _ _) => true
  | _ => false

/-- `os.path.isfile` relative to a tree root. -/
def isFileAtB (t : FSTree) (p : List String) : Bool :=
  match resolvePath p t with
  | some (.file _ _) => true
  | _ => false

/-- The two directory trees the program works on.  `Side.src` paths resolve in
`src`, `Side.dst` paths in `dst` and `Side.tmp` paths in the empty scratch
directory. -/
structure World where
  src : FSTree
  dst : FSTree
deriving DecidableEq, Repr

/-- `os.path.exists` / `os.stat` for a full path. -/
def World.resolve (w : World) (p : FPath) : Option FSTree :=
  match p.side with
  | .src => resolvePath p.segs w.src
  | .dst => resolvePath p.segs w.dst
  | .tmp => resolvePath p.segs emptyDir

/-! ## Path Filter and mtime comparison (`diff.py` run()/`__filter`, `utils._cmp_mtime`) -/

/-- Substring search of `pat` inside `s`: the semantics of
`re.compile(re.escape(pat)).search(s)`, i.e. of a pattern compiled in literal
mode. -/
def listSearch (p : List Char) : List Char → Bool
  | [] => p.isEmpty
  | c :: r => p.isPrefixOf (c :: r) || listSearch p r

/-- Substring search on strings. -/
def substrSearch (pat s : String) : Bool :=
  listSearch pat.data s.data

/-- The semantics of `compiled.search(name)` for one configured pattern.  When
`regexfilters` is set the pattern is compiled as a regular expression, whose
search semantics is the explicit parameter `research`; otherwise the pattern is
escaped first (`re.escape`), which makes the search a literal substring
search. -/
def compiledSearch (research : String → String → Bool) (regexfilters : Bool)
    (pat name : String) : Bool :=
  if regexfilters then research pat name else substrSearch pat name

/-- The comparison options of the Diff engine (the `opts` of class `Diff`,
with `filelist` fixed to `None`: all claims are about the directory-tree
comparison form). -/
structure DiffCfg where
  filters : List String
  excludes : List String
  regexfilters : Bool
  includedirs : Bool
  timeprecision : ℕ
  recursive : Bool
  newer : Bool
  forceUpdate : Bool
  sizeLimit : ℕ
deriving DecidableEq, Repr

/-- The default diff settings of a `Sync` session (`Sync.__init__`,
`self.diffstngs`). -/
def syncDefaultCfg : DiffCfg :=
  { filters := []
    excludes := [".DS_Store", "Thumbs.db", ".place-holder"]
    regexfilters := false
    includedirs := true
    timeprecision := 3
    recursive := true
    newer := true
    forceUpdate := false
    sizeLimit := 0 }

/-- The Path Filter `__filter(name, path=None)` defined inside `Diff.run`.
The optional second argument is used only for `os.path.getsize(path)`, so it
is modelled as the size of the node the path stats (`none` when no path is
supplied).  Integer division is Python 2 floor division. -/
def diffFilter (research : String → String → Bool) (cfg : DiffCfg)
    (name : String) (size? : Option ℕ) : Bool :=
  -- result = False; filter with filters
  let result := false
  let result :=
    if cfg.filters.isEmpty then true
    else cfg.filters.foldl
      (fun r f => if compiledSearch research cfg.regexfilters f name then true else r) result
  -- filter with excludes
  let result := cfg.excludes.foldl
    (fun r e => if compiledSearch research cfg.regexfilters e name then false else r) result
  -- filter with size (only when a concrete path was supplied)
  match size? with
  | some sz =>
    if cfg.sizeLimit > 0 then (if sz / 1024 < cfg.sizeLimit then false else result)
    else result
  | none => result

/-- Python `round(x, p)` scaled by `10 ^ p`: the integer nearest to
`x * 10 ^ p`, computed directly on the numerator and denominator so that it
evaluates inside the kernel.  `roundp_eq_round` below identifies it with
Mathlib's `round`, and comparing two mtimes rounded to `p` digits is the same
as comparing these integers (the common positive factor `10 ^ -p` cancels, see
`cmp_mtime_newer_iff`/`cmp_mtime_any_iff`). -/
def roundp (q : ℚ) (p : ℕ) : ℤ :=
  (2 * q.num * 10 ^ p + q.den) / (2 * (q.den : ℤ))

theorem roundp_eq_round (q : ℚ) (p : ℕ) : roundp q p = round (q * 10 ^ p) := by
  rw [round_eq]
  have hden : ((q.den : ℚ)) ≠ 0 := Nat.cast_ne_zero.mpr q.den_nz
  have hq : (q * 10 ^ p + 1 / 2 : ℚ) =
      ((2 * q.num * 10 ^ p + (q.den : ℤ) : ℤ) : ℚ) / ((2 * q.den : ℕ) : ℚ) := by
    have h := Rat.num_div_den q
    conv_lhs => rw [← h]
    push_cast
    field_simp
    ring
  rw [hq, Rat.floor_intCast_div_natCast]
  unfold roundp
  push_cast
  ring_nf

/-- `utils._cmp_mtime(fileA, fileB, precision, newer)` on the two stat'd
mtimes: `True` when A is newer than B at the configured precision (or, when
`newer` is false, when the rounded times differ). -/
def cmp_mtime (a b : ℚ) (precision : ℕ) (newer : Bool) : Bool :=
  if newer then decide (roundp a precision > roundp b precision)
  else decide (roundp a precision ≠ roundp b precision)

/-- With the newer-only policy, `_cmp_mtime` holds iff the source mtime
rounded to `precision` digits is strictly greater than the destination mtime
rounded to the same precision. -/
theorem cmp_mtime_newer_iff (a b : ℚ) (p : ℕ) :
    cmp_mtime a b p true = true ↔
      ((round (b * 10 ^ p) : ℤ) : ℚ) / 10 ^ p <
        ((round (a * 10 ^ p) : ℤ) : ℚ) / 10 ^ p := by
  have hpos : (0 : ℚ) < 10 ^ p := by positivity
  unfold cmp_mtime
  rw [if_pos rfl, decide_eq_true_iff, roundp_eq_round, roundp_eq_round,
    div_lt_div_iff_of_pos_right hpos]
  exact Iff.symm Int.cast_lt

/-- With the newer-only policy disabled, `_cmp_mtime` holds iff the two
rounded mtimes differ. -/
theorem cmp_mtime_any_iff (a b : ℚ) (p : ℕ) :
    cmp_mtime a b p false = true ↔
      ¬ ((round (a * 10 ^ p) : ℤ) : ℚ) / 10 ^ p =
        ((round (b * 10 ^ p) : ℤ) : ℚ) / 10 ^ p := by
  have hpos : (0 : ℚ) < 10 ^ p := by positivity
  unfold cmp_mtime
  rw [if_neg (by simp), decide_eq_true_iff, roundp_eq_round, roundp_eq_round]
  rw [ne_eq, not_iff_not, div_eq_div_iff hpos.ne' hpos.ne',
    (mul_left_injective₀ hpos.ne').eq_iff, Int.cast_inj]

/-! ## The ChangeSet (class `Diff` state) -/

/-- A stored child entry of one of the three mappings.  The code stores the
base name as a string, suffixed with the path separator when the path is a
directory (`Diff.__asdir`); the suffix is modelled by the `isDir` flag, so two
entries are the same stored string iff they are equal as `Child`. -/
structure Child where
  name : String
  isDir : Bool
deriving DecidableEq, Repr

/-- One of the three mappings of a ChangeSet: a Python dict from normalized
parent directory to the list of child entries, modelled as an association
list with pairwise-distinct keys. -/
abbrev DirMap := List (FPath × List Child)

/-- Dict lookup. -/
def dmGet (m : DirMap) (k : FPath) : Option (List Child) :=
  match m with
  | [] => none
  | e :: r => if e.1 = k then some e.2 else dmGet r k

/-- Dict assignment `m[k] = v` (replace in place, or append a new key). -/
def dmSet (m : DirMap) (k : FPath) (v : List Child) : DirMap :=
  match m with
  | [] => [(k, v)]
  | e :: r => if e.1 = k then (k, v) :: r else e :: dmSet r k v

/-- Dict deletion `del m[k]`. -/
def dmErase (m : DirMap) (k : FPath) : DirMap :=
  match m with
  | [] => []
  | e :: r => if e.1 = k then r else e :: dmErase r k

/-- Dict merge `m.update(other)`: every key of `other` is assigned into `m`,
overwriting an existing binding. -/
def dmUpdate (m other : DirMap) : DirMap :=
  other.foldl (fun acc e => dmSet acc e.1 e.2) m

/-- Total number of child entries of a mapping
(`len([x for y in attr.values() for x in y])`). -/
def dmCount (m : DirMap) : ℕ :=
  (m.map (fun e => e.2.length)).sum

/-- The three change-set operations. -/
inductive Op where
  | create
  | update
  | purge
deriving DecidableEq, Repr

/-- The mutable state of a `Diff` instance: the three mappings and the four
stored counts. -/
structure Diff where
  create : DirMap
  update : DirMap
  purge : DirMap
  createcount : ℕ
  updatecount : ℕ
  purgecount : ℕ
  totalcount : ℕ
deriving DecidableEq, Repr

/-- A freshly constructed `Diff()` before any comparison. -/
def Diff.mkEmpty : Diff := ⟨[], [], [], 0, 0, 0, 0⟩

/-- `Diff.update_counts(ops)`: recompute the counts of the listed mappings and
then the total from the three stored counts. -/
def Diff.update_counts (d : Diff) (ops : List Op) : Diff :=
  let d := if Op.create ∈ ops then { d with createcount := dmCount d.create } else d
  let d := if Op.update ∈ ops then { d with updatecount := dmCount d.update } else d
  let d := if Op.purge ∈ ops then { d with purgecount := dmCount d.purge } else d
  { d with totalcount := d.createcount + d.updatecount + d.purgecount }

/-- Core of `Diff._add(op, path)`: split the (already rstripped) path into its
normalized parent directory and base name, and append the base — marked with
the separator suffix when the path stats as a directory — to the parent's
list.  The `isDir` argument is the value of `utils._isdir(path)`. -/
def dmAdd (m : DirMap) (path : FPath) (isDir : Bool) : DirMap :=
  match path.segs.getLast? with
  | none => m
  | some base =>
    match dmGet m ⟨path.side, path.segs.dropLast⟩ with
    | none => dmSet m ⟨path.side, path.segs.dropLast⟩ [⟨base, isDir⟩]
    | some l => dmSet m ⟨path.side, path.segs.dropLast⟩ (l ++ [⟨base, isDir⟩])

/-- `Diff._add` with the result of the `utils._isdir(path)` stat supplied by
the caller (inside `processCmp` the branch taken has just established it). -/
def Diff.addOpK (d : Diff) (op : Op) (path : FPath) (isDir : Bool) : Diff :=
  match op with
  | .create => { d with create := dmAdd d.create path isDir }
  | .update => { d with update := dmAdd d.update path isDir }
  | .purge => { d with purge := dmAdd d.purge path isDir }

/-- Public `Diff.add_create(path)`; the directory test consults the
filesystem. -/
def Diff.add_create (w : World) (d : Diff) (path : FPath) : Diff :=
  d.addOpK .create path ((w.resolve path).elim false FSTree.isDirB)

/-- Public `Diff.add_update(path)`. -/
def Diff.add_update (w : World) (d : Diff) (path : FPath) : Diff :=
  d.addOpK .update path ((w.resolve path).elim false FSTree.isDirB)

/-- Public `Diff.add_purge(path)`. -/
def Diff.add_purge (w : World) (d : Diff) (path : FPath) : Diff :=
  d.addOpK .purge path ((w.resolve path).elim false FSTree.isDirB)

/-- Remove one stored child from a mapping: erase the first occurrence, and
drop the parent key when its list becomes empty (`Diff._remove`, inner
part). -/
def dmRemove (m : DirMap) (key : FPath) (child : Child) : DirMap :=
  match dmGet m key with
  | none => m
  | some l =>
    if child ∈ l then
      let l' := l.erase child
      if l' = [] then dmErase m key else dmSet m key l'
    else m

/-- `Diff._remove(op, path)`: only acts (and only recomputes the counts of
`op`) when the path currently exists on disk; the stored name is looked up
directory-marked or plain according to `utils._isdir(path)`. -/
def Diff.removeOp (w : World) (d : Diff) (op : Op) (path : FPath) : Diff :=
  match w.resolve path with
  | none => d
  | some node =>
    let d :=
      match path.segs.getLast? with
      | none => d
      | some base =>
        let key : FPath := ⟨path.side, path.segs.dropLast⟩
        let child : Child := ⟨base, node.isDirB⟩
        match op with
        | .create => { d with create := dmRemove d.create key child }
        | .update => { d with update := dmRemove d.update key child }
        | .purge => { d with purge := dmRemove d.purge key child }
    d.update_counts [op]

/-- `Diff.remove_create(path)`. -/
def Diff.remove_create (w : World) (d : Diff) (path : FPath) : Diff :=
  d.removeOp w .create path

/-- `Diff.remove_update(path)`. -/
def Diff.remove_update (w : World) (d : Diff) (path : FPath) : Diff :=
  d.removeOp w .update path

/-- `Diff.remove_purge(path)`. -/
def Diff.remove_purge (w : World) (d : Diff) (path : FPath) : Diff :=
  d.removeOp w .purge path

/-! ## The Diff Engine (`Diff.run`, `processCmp`, `__dirdiff`) -/

/-- Python exceptions relevant to the embedding. -/
inductive PyErr where
  | osError
  | ioError
  | attributeError
  | typeError
  | fuelExhausted
deriving DecidableEq, Repr

/-- Names invisible to `filecmp.dircmp` by default (its `ignore` list; its
`hide` list contains only `.` and `..`, which cannot be children of a
well-formed tree). -/
def dircmpIgnores : List String := ["RCS", "CVS", "tags"]

/-- The child names of a directory as seen by `filecmp.dircmp`. -/
def visibleNames (cs : FSList) : List String :=
  cs.names.filter (fun n => !(dircmpIgnores.contains n))

/-- Sort a list of names (`sorted(...)` on strings). -/
def sortNames (l : List String) : List String :=
  l.insertionSort (fun a b => a ≤ b)

/-- Names only in the left (source) directory, sorted
(`sorted(cmp.left_only)`). -/
def cmpLeftOnly (scs dcs : FSList) : List String :=
  sortNames ((visibleNames scs).filter (fun n => (dcs.lookup n).isNone))

/-- Names in both directories, sorted (`sorted(cmp.common)`). -/
def cmpCommon (scs dcs : FSList) : List String :=
  sortNames ((visibleNames scs).filter (fun n => (dcs.lookup n).isSome))

/-- Names only in the right (destination) directory, sorted
(`sorted(cmp.right_only)`). -/
def cmpRightOnly (scs dcs : FSList) : List String :=
  sortNames ((visibleNames dcs).filter (fun n => (scs.lookup n).isNone))

/-- Loop body of the `create files` loop of `processCmp`, for one sorted
left-only name `x`: files are recorded subject to the Path Filter; directories
are recorded when `includedirs` holds and the filter accepts, and with
`recursive` the engine recurses with the destination side replaced by the
scratch directory, merging only the subtree's create results. -/
def createStep (research : String → String → Bool) (cfg : DiffCfg)
    (recur : Option (FPath × FSTree) → Option (FPath × FSTree) → Except PyErr Diff)
    (sp : FPath) (scs : FSList) (acc : Diff) (x : String) : Except PyErr Diff :=
  match scs.lookup x with
  | some (.file _ sz) =>
    pure (if diffFilter research cfg x (some sz) then
      acc.addOpK .create ⟨sp.side, sp.segs ++ [x]⟩ false else acc)
  | some (.dir mt sz cs) => do
    let acc := if cfg.includedirs && diffFilter research cfg x (some sz) then
      acc.addOpK .create ⟨sp.side, sp.segs ++ [x]⟩ true else acc
    if cfg.recursive then do
      let d ← recur (some (⟨sp.side, sp.segs ++ [x]⟩, .dir mt sz cs)) none
      pure { acc with create := dmUpdate acc.create d.create }
    else pure acc
  | none => pure acc

/-- Loop body of the `update files` loop of `processCmp`, for one sorted
common name `x`: a source-side file is recorded as update when
`utils._cmp_mtime` holds subject to the Path Filter, and recorded again
unconditionally when `forceUpdate` is set; a source-side directory is recursed
into on both sides when `recursive` holds (the directory itself is never
added), merging the subtree's create, update and purge results. -/
def updateStep (research : String → String → Bool) (cfg : DiffCfg)
    (recur : Option (FPath × FSTree) → Option (FPath × FSTree) → Except PyErr Diff)
    (sp dp : FPath) (scs dcs : FSList) (acc : Diff) (x : String) : Except PyErr Diff :=
  match scs.lookup x, dcs.lookup x with
  | some (.file mtS szS), some dnode =>
    let acc := if cmp_mtime mtS dnode.mtime cfg.timeprecision cfg.newer &&
        diffFilter research cfg x (some szS) then
      acc.addOpK .update ⟨sp.side, sp.segs ++ [x]⟩ false else acc
    pure (if cfg.forceUpdate then
      acc.addOpK .update ⟨sp.side, sp.segs ++ [x]⟩ false else acc)
  | some (.dir mtS szS cs), some dnode =>
    if cfg.recursive then do
      let d ← recur (some (⟨sp.side, sp.segs ++ [x]⟩, .dir mtS szS cs))
        (some (⟨dp.side, dp.segs ++ [x]⟩, dnode))
      pure { acc with
        create := dmUpdate acc.create d.create
        update := dmUpdate acc.update d.update
        purge := dmUpdate acc.purge d.purge }
    else pure acc
  | _, _ => pure acc

/-- Loop body of the `purge files` loop of `processCmp`, for one sorted
right-only name `x`: both files and directories are recorded subject to
`__filter(x)` with no path (directories are not gated on `includedirs`), and
with `recursive` the engine recurses with the source side replaced by the
scratch directory, merging only the subtree's purge results. -/
def purgeStep (research : String → String → Bool) (cfg : DiffCfg)
    (recur : Option (FPath × FSTree) → Option (FPath × FSTree) → Except PyErr Diff)
    (dp : FPath) (dcs : FSList) (acc : Diff) (x : String) : Except PyErr Diff :=
  match dcs.lookup x with
  | some (.file _ _) =>
    pure (if diffFilter research cfg x none then
      acc.addOpK .purge ⟨dp.side, dp.segs ++ [x]⟩ false else acc)
  | some (.dir mt sz cs) => do
    let acc := if diffFilter research cfg x none then
      acc.addOpK .purge ⟨dp.side, dp.segs ++ [x]⟩ true else acc
    if cfg.recursive then do
      let d ← recur none (some (⟨dp.side, dp.segs ++ [x]⟩, .dir mt sz cs))
      pure { acc with purge := dmUpdate acc.purge d.purge }
    else pure acc
  | none => pure acc

/-- `processCmp(cmp, src, dst, tmpdir, **kwargs)`: start from a fresh
`Diff(**kwargs)` and run the three loops over the sorted comparison result.
`recur` is `__dirdiff` at the remaining fuel; `sp`/`dp` are the two real
directory paths being compared and `scs`/`dcs` their children. -/
def processCmp (research : String → String → Bool) (cfg : DiffCfg)
    (recur : Option (FPath × FSTree) → Option (FPath × FSTree) → Except PyErr Diff)
    (sp dp : FPath) (scs dcs : FSList) : Except PyErr Diff := do
  let d1 ← (cmpLeftOnly scs dcs).foldlM (createStep research cfg recur sp scs) Diff.mkEmpty
  let d2 ← (cmpCommon scs dcs).foldlM (updateStep research cfg recur sp dp scs dcs) d1
  (cmpRightOnly scs dcs).foldlM (purgeStep research cfg recur dp dcs) d2

/-- `__dirdiff(src, dst, tmpdir)`: replace a missing side by the scratch
(empty) directory, run `filecmp.dircmp` — which lists children and therefore
raises when a side is not a directory — and process the comparison.  The
recursion is indexed by fuel; the public entry point supplies enough for the
whole tree. -/
def dirdiff (research : String → String → Bool) (cfg : DiffCfg) :
    ℕ → Option (FPath × FSTree) → Option (FPath × FSTree) → Except PyErr Diff
  | 0, _, _ => .error .fuelExhausted
  | fuel + 1, src?, dst? =>
    let sd := src?.getD (⟨Side.tmp, []⟩, emptyDir)
    let dd := dst?.getD (⟨Side.tmp, []⟩, emptyDir)
    match sd.2, dd.2 with
    | .dir _ _ scs, .dir _ _ dcs =>
      processCmp research cfg (dirdiff research cfg fuel) sd.1 dd.1 scs dcs
    | _, _ => .error .osError

/-- `Diff.run()` for the directory-tree form (`self.filelist is None`): run
the recursive comparison from the two roots, then install the three mappings
and recompute all counts.  The scratch directory is created before and
removed after the comparison; it is modelled by the empty `Side.tmp` root. -/
def Diff.runM (research : String → String → Bool) (cfg : DiffCfg)
    (w : World) : Except PyErr Diff := do
  let d ← dirdiff research cfg (w.src.size + w.dst.size + 1)
    (some (⟨Side.src, []⟩, w.src)) (some (⟨Side.dst, []⟩, w.dst))
  pure (d.update_counts [.create, .update, .purge])

/-! ## Filesystem mutation primitives used by the Sync Executor -/

/-- A fresh chain of directories ending in an empty directory (what
`os.makedirs` creates below the deepest existing prefix).  The mtimes of
directories created this way are the current time; they are never compared by
the diff engine, so they are modelled as `0`. -/
def mkChain : List String → FSTree
  | [] => .dir 0 0 .nil
  | n :: r => .dir 0 0 (.cons n (mkChain r) .nil)

/-- `os.makedirs(p)`: create every missing directory of the chain; raises when
the target already exists or a non-directory blocks the chain. -/
def makedirsAt : List String → FSTree → Except PyErr FSTree
  | [], _ => .error .osError
  | n :: r, .dir mt sz cs =>
    match cs.lookup n with
    | none => .ok (.dir mt sz (cs.set n (mkChain r)))
    | some c => do
      let c' ← makedirsAt r c
      .ok (.dir mt sz (cs.set n c'))
  | _ :: _, .file _ _ => .error .osError

/-- `os.mkdir(p)`: create exactly one directory; raises when the target
exists or the parent is missing or not a directory. -/
def mkdirAt : List String → FSTree → Except PyErr FSTree
  | [], _ => .error .osError
  | [n], .dir mt sz cs =>
    if (cs.lookup n).isSome then .error .osError
    else .ok (.dir mt sz (cs.set n (.dir 0 0 .nil)))
  | n :: r, .dir mt sz cs =>
    match cs.lookup n with
    | some c => do
      let c' ← mkdirAt r c
      .ok (.dir mt sz (cs.set n c'))
    | none => .error .osError
  | _ :: _, .file _ _ => .error .osError

/-- Overwrite the `st_mtime` of the node at a path (the observable effect of
`shutil.copystat` onto it; mode bits are not modelled). -/
def setMtimeAt : List String → ℚ → FSTree → Option FSTree
  | [], mt, .file _ sz => some (.file mt sz)
  | [], mt, .dir _ sz cs => some (.dir mt sz cs)
  | n :: r, mt, .dir dmt dsz cs =>
    match cs.lookup n with
    | some c => (setMtimeAt r mt c).map (fun c' => .dir dmt dsz (cs.set n c'))
    | none => none
  | _ :: _, _, .file _ _ => none

/-- `shutil.copystat(src, dst)`: stat the source node and copy its metadata
onto the destination node; raises when either path is missing. -/
def copystatAt (srcT : FSTree) (sp : List String) (dstT : FSTree)
    (dp : List String) : Except PyErr FSTree :=
  match resolvePath sp srcT with
  | none => .error .osError
  | some sn =>
    match setMtimeAt dp sn.mtime dstT with
    | none => .error .osError
    | some t => .ok t

/-- Write a file node at a path whose parent is an existing directory; raises
when the parent chain is missing/not a directory or the target is an existing
directory. -/
def writeFileAt : List String → FSTree → FSTree → Except PyErr FSTree
  | [], _, _ => .error .ioError
  | [n], node, .dir mt sz cs =>
    (match cs.lookup n with
     | some (.dir _ _ _) => .error .ioError
     | _ => .ok (.dir mt sz (cs.set n node)))
  | n :: r, node, .dir mt sz cs =>
    match cs.lookup n with
    | some c => do
      let c' ← writeFileAt r node c
      .ok (.dir mt sz (cs.set n c'))
    | none => .error .ioError
  | _ :: _, _, .file _ _ => .error .ioError

/-- Write a file node as child `base` of the directory at a path, updating
that directory's mtime to the current time `now` (the filesystem effect of
creating an entry inside it). -/
def writeIntoDirAt (now : ℚ) : List String → String → FSTree → FSTree →
    Except PyErr FSTree
  | [], base, node, .dir _ sz cs =>
    (match cs.lookup base with
     | some (.dir _ _ _) => .error .ioError
     | _ => .ok (.dir now sz (cs.set base node)))
  | [], _, _, .file _ _ => .error .ioError
  | n :: r, base, node, .dir mt sz cs =>
    match cs.lookup n with
    | some c => do
      let c' ← writeIntoDirAt now r base node c
      .ok (.dir mt sz (cs.set n c'))
    | none => .error .ioError
  | _ :: _, _, _, .file _ _ => .error .ioError

/-- `shutil.copy2(src, dst)`: copy file content and metadata.  When `dst` is
an existing directory the file is copied into it under the source base name
(and creating that entry sets the directory's mtime to the current time
`now`); copying a directory or onto a missing parent raises. -/
def copy2At (now : ℚ) (srcT : FSTree) (sp : List String) (dstT : FSTree)
    (dp : List String) : Except PyErr FSTree :=
  match resolvePath sp srcT with
  | some (.file mt sz) =>
    (match resolvePath dp dstT with
     | some (.dir _ _ _) =>
       (match sp.getLast? with
        | some base => writeIntoDirAt now dp base (.file mt sz) dstT
        | none => .error .ioError)
     | _ => writeFileAt dp (.file mt sz) dstT)
  | some (.dir _ _ _) => .error .ioError
  | none => .error .ioError

/-- Delete the child entry at a path (`os.remove` / `shutil.rmtree` effect);
`none` when the path does not exist. -/
def delChildAt : List String → FSTree → Option FSTree
  | [], _ => none
  | [n], .dir mt sz cs =>
    if (cs.lookup n).isSome then some (.dir mt sz (cs.del n)) else none
  | n :: r, .dir mt sz cs =>
    (cs.lookup n).bind (fun c => (delChildAt r c).map (fun c' => .dir mt sz (cs.set n c')))
  | _ :: _, .file _ _ => none

/-! ## The Sync Executor (`sync.py`) -/

/-- The run settings of a `Sync` session that the executor consults
(`self.runstngs`; `maketarget` is never read by the code and `trimmed` only
selects which ChangeSet is passed to `runwithdiff`). -/
structure RunCfg where
  create : Bool
  update : Bool
  purge : Bool
  forceOwnership : Bool
  errorsToDebug : Bool
deriving DecidableEq, Repr

/-- The per-run statistics (`self.stats`): succeeded and failed paths per
phase, plus the progress counter `self.progressamt` (the progress callback is
modelled as present, so every per-item handler ticks it). -/
structure Stats where
  creates : List FPath
  createfails : List FPath
  updates : List FPath
  updatefails : List FPath
  purges : List FPath
  purgefails : List FPath
  progressamt : ℕ
deriving DecidableEq, Repr

/-- Freshly reset statistics (`Sync.__run`). -/
def Stats.reset : Stats := ⟨[], [], [], [], [], [], 0⟩

/-- Append a path to the pass list of a phase. -/
def Stats.addPass (st : Stats) (phase : Op) (p : FPath) : Stats :=
  match phase with
  | .create => { st with creates := st.creates ++ [p] }
  | .update => { st with updates := st.updates ++ [p] }
  | .purge => { st with purges := st.purges ++ [p] }

/-- Append a path to the failure list of a phase. -/
def Stats.addFail (st : Stats) (phase : Op) (p : FPath) : Stats :=
  match phase with
  | .create => { st with createfails := st.createfails ++ [p] }
  | .update => { st with updatefails := st.updatefails ++ [p] }
  | .purge => { st with purgefails := st.purgefails ++ [p] }

/-- One progress-callback invocation (`self.__getProgPercent`). -/
def Stats.tick (st : Stats) : Stats :=
  { st with progressamt := st.progressamt + 1 }

/-- `Sync.__makedirs(dir_, passes, fails, dry_run)`.  The body invokes
`os.makedirs(dir_)` unconditionally: the `dry_run` parameter is accepted but
never consulted, faithfully reproduced here.  All exceptions are caught and
recorded. -/
def syncMakedirs (dryRun : Bool) (w : World) (dir_ : List String)
    (st : Stats) (phase : Op) : World × Stats :=
  match makedirsAt dir_ w.dst with
  | .error _ => (w, st.addFail phase ⟨Side.dst, dir_⟩)
  | .ok t => ({ w with dst := t }, st.addPass phase ⟨Side.dst, dir_⟩)

/-- `Sync.__copydir(src, dst, passes, fails, dry_run)`: progress callback,
then `os.mkdir(dst)` inside a try (skipped on dry run, all exceptions caught
and recorded), then — in the success branch but OUTSIDE the try —
`shutil.copystat(src, dst)`, whose exceptions therefore propagate.  Mode bits
are not modelled, so the `forceOwnership` chmod never fails. -/
def syncCopydir (dryRun : Bool) (w : World) (srcp dstp : List String)
    (st : Stats) (phase : Op) : Except PyErr (World × Stats) :=
  let st := st.tick
  match (if dryRun then .ok w.dst else mkdirAt dstp w.dst : Except PyErr FSTree) with
  | .error _ => .ok (w, st.addFail phase ⟨Side.dst, dstp⟩)
  | .ok t =>
    let w := { w with dst := t }
    match copystatAt w.src srcp w.dst dstp with
    | .error e => .error e
    | .ok t2 => .ok ({ w with dst := t2 }, st.addPass phase ⟨Side.dst, dstp⟩)

/-- `Sync.__copy(src, dst, passes, fails, dry_run)`: progress callback, then
`shutil.copy2` inside a try that skips all mutation on dry run; `IOError` and
`OSError` are caught and recorded.  Mode bits are not modelled, so the
`forceOwnership` chmod never fails. -/
def syncCopy (dryRun : Bool) (now : ℚ) (w : World) (srcp dstp : List String)
    (st : Stats) (phase : Op) : World × Stats :=
  let st := st.tick
  if dryRun then (w, st.addPass phase ⟨Side.dst, dstp⟩)
  else
    match copy2At now w.src srcp w.dst dstp with
    | .error _ => (w, st.addFail phase ⟨Side.dst, dstp⟩)
    | .ok t => ({ w with dst := t }, st.addPass phase ⟨Side.dst, dstp⟩)

/-- `Sync.__rmdir(dir_, passes, fails, dry_run)`: progress callback; when the
target is not a directory, log and return (neither pass nor fail); otherwise
`shutil.rmtree` inside a try skipped on dry run, all exceptions caught. -/
def syncRmdir (dryRun : Bool) (w : World) (dstp : List String)
    (st : Stats) (phase : Op) : World × Stats :=
  let st := st.tick
  if !isDirAtB w.dst dstp then (w, st)
  else if dryRun then (w, st.addPass phase ⟨Side.dst, dstp⟩)
  else
    match delChildAt dstp w.dst with
    | none => (w, st.addFail phase ⟨Side.dst, dstp⟩)
    | some t => ({ w with dst := t }, st.addPass phase ⟨Side.dst, dstp⟩)

/-- `Sync.__remove(f, passes, fails, dry_run)`: progress callback; when the
target is not a file, log and return; otherwise `os.remove` inside a try
skipped on dry run, `OSError` caught. -/
def syncRemove (dryRun : Bool) (w : World) (dstp : List String)
    (st : Stats) (phase : Op) : World × Stats :=
  let st := st.tick
  if !isFileAtB w.dst dstp then (w, st)
  else if dryRun then (w, st.addPass phase ⟨Side.dst, dstp⟩)
  else
    match delChildAt dstp w.dst with
    | none => (w, st.addFail phase ⟨Side.dst, dstp⟩)
    | some t => ({ w with dst := t }, st.addPass phase ⟨Side.dst, dstp⟩)

/-- Key order used by `sorted(diff.attr.items())`: Python sorts the rendered
path strings; on paths of clean segments under a common root this is the
segmentwise lexicographic order, which in particular puts every directory
before all of its descendants. -/
def segsLe : List String → List String → Bool
  | [], _ => true
  | _ :: _, [] => false
  | a :: as, b :: bs => if a = b then segsLe as bs else decide (a < b)

/-- Order on full mapping keys (keys of one mapping share a root in every
ChangeSet the engine produces). -/
def sideRank : Side → ℕ
  | .src => 0
  | .dst => 1
  | .tmp => 2

/-- Bool order on mapping keys. -/
def keyLe (a b : FPath) : Bool :=
  if a.side = b.side then segsLe a.segs b.segs
  else decide (sideRank a.side < sideRank b.side)

/-- `sorted(attr.items())`. -/
def sortedItems (m : DirMap) : DirMap :=
  m.insertionSort (fun x y => keyLe x.1 y.1 = true)

/-- `Sync.runwithdiff(diff, dry_run)`: the three phases, each iterating the
corresponding mapping in sorted key order.  `self.progresscheck` is modelled
as absent (no cancellation); `now` is the clock used for directory mtimes
touched by `copy2` into an existing directory.  Mapping keys are paths under
the phase's root, so `os.path.relpath(path, root)` is the segment list. -/
def Sync.runwithdiff (rcfg : RunCfg) (dryRun : Bool) (now : ℚ) (d : Diff)
    (w : World) (st0 : Stats) : Except PyErr (World × Stats) := do
  -- run through all 'create' files
  let ws ← if rcfg.create then
    (sortedItems d.create).foldlM (fun ws kv => do
      let rel := kv.1.segs
      -- make the destination dir if it doesn't exist
      let ws := if !isDirAtB ws.1.dst rel then
        syncMakedirs dryRun ws.1 rel ws.2 .create else ws
      kv.2.foldlM (fun (ws : World × Stats) c => do
        let srcp := rel ++ [c.name]
        let dstp := rel ++ [c.name]
        if isDirAtB ws.1.src srcp then
          syncCopydir dryRun ws.1 srcp dstp ws.2 .create
        else if isFileAtB ws.1.src srcp then
          pure (syncCopy dryRun now ws.1 srcp dstp ws.2 .create)
        else pure ws) ws) (w, st0)
    else pure (w, st0)
  -- run through all 'update' files
  let ws ← if rcfg.update then
    (sortedItems d.update).foldlM (fun ws kv => do
      let rel := kv.1.segs
      kv.2.foldlM (fun (ws : World × Stats) c => do
        -- updates never include dirs
        let srcp := rel ++ [c.name]
        let dstp := rel ++ [c.name]
        pure (syncCopy dryRun now ws.1 srcp dstp ws.2 .update)) ws) ws
    else pure ws
  -- run through all 'purge' files
  if rcfg.purge then
    (sortedItems d.purge).foldlM (fun ws kv => do
      let rel := kv.1.segs
      kv.2.foldlM (fun (ws : World × Stats) c => do
        let dstp := rel ++ [c.name]
        if isDirAtB ws.1.dst dstp then
          pure (syncRmdir dryRun ws.1 dstp ws.2 .purge)
        else if isFileAtB ws.1.dst dstp then
          pure (syncRemove dryRun ws.1 dstp ws.2 .purge)
        else pure ws) ws) ws  -- file/folder not found: logged and skipped
  else pure ws

/-! ## The Sync session (`Sync.diff`, `Sync.difftrim`) -/

/-- The part of a `Sync` session's state the diff-lifecycle claims are about:
the last original ChangeSet and its trimmed derivative. -/
structure SyncSt where
  origdiff : Option Diff
  trimdiff : Option Diff
deriving DecidableEq, Repr

/-- `Sync.diff()`: regenerate the original ChangeSet and install a deep copy
(`Diff.copy`) as the trimmed one.  A deep copy of a value is the value
itself. -/
def Sync.diffM (research : String → String → Bool) (cfg : DiffCfg) (w : World)
    (_st : SyncSt) : Except PyErr SyncSt := do
  let d ← Diff.runM research cfg w
  pure { origdiff := some d, trimdiff := some d }

/-- `Sync.difftrim(create, update, purge)`: remove the listed paths from the
trimmed ChangeSet only.  Calling it before any `diff()` dereferences `None`
and raises. -/
def Sync.difftrim (w : World) (cl ul pl : List FPath) (st : SyncSt) :
    Except PyErr SyncSt :=
  match st.trimdiff with
  | none => .error .attributeError
  | some t =>
    let t := cl.foldl (fun t p => Diff.remove_create w t p) t
    let t := ul.foldl (fun t p => Diff.remove_update w t p) t
    let t := pl.foldl (fun t p => Diff.remove_purge w t p) t
    .ok { st with trimdiff := some t }

/-! ## `Diff.__init__` path normalization (claim C10) -/

/-- `os.path.normpath` on the string form of a root path.  Roots are assumed
already normalized, so this is the identity; what matters below is only that
it is a genuine string operation, which raises when applied to `None`. -/
def pyNormpath (s : String) : String := s

/-- The two root assignments of `Diff.__init__`:
`self.src = os.path.normpath(src) if src is not None else None` and
`self.dst = os.path.normpath(dst) if src is not None else None` — the guard
of the second line tests `src`, not `dst`. -/
def diffInit (src dst : Option String) : Except PyErr (Option String × Option String) :=
  let s := src.map pyNormpath
  match src with
  | some _ =>
    (match dst with
     | some ds => .ok (s, some (pyNormpath ds))
     | none => .error .attributeError)
  | none => .ok (s, none)

/-! ## Claim C8: the Path Filter refines its specification -/

/-- Modelled from the spec: `accept(relativePath, absolutePathOrNil)` of
§4.1 — accept by default when no inclusion patterns are configured, otherwise
accept when at least one inclusion pattern matches; any matching exclusion
pattern overrides to reject; a configured positive minimum size with a
concrete file path rejects files whose size floor-divided by 1024 is below the
threshold, overriding the pattern steps. -/
def specAccept (research : String → String → Bool) (cfg : DiffCfg)
    (name : String) (size? : Option ℕ) : Bool :=
  let step1 := cfg.filters.isEmpty ||
    cfg.filters.any (fun f => compiledSearch research cfg.regexfilters f name)
  let step2 := !(cfg.excludes.any (fun e => compiledSearch research cfg.regexfilters e name)) && step1
  match size? with
  | some sz => if cfg.sizeLimit > 0 && decide (sz / 1024 < cfg.sizeLimit) then false else step2
  | none => step2

theorem foldl_if_true (p : α → Bool) (l : List α) (init : Bool) :
    l.foldl (fun r f => if p f then true else r) init = (init || l.any p) := by
  induction l generalizing init with
  | nil => simp
  | cons a l ih =>
    rw [List.foldl_cons, List.any_cons, ih]
    by_cases h : p a = true <;> simp [h]

theorem foldl_if_false (q : α → Bool) (l : List α) (init : Bool) :
    l.foldl (fun r e => if q e then false else r) init = (init && !(l.any q)) := by
  induction l generalizing init with
  | nil => simp
  | cons a l ih =>
    rw [List.foldl_cons, List.any_cons, ih]
    by_cases h : q a = true <;> simp [h]

theorem foldl_or_left (p : α → Bool) (l : List α) (init : Bool) :
    l.foldl (fun r f => p f || r) init = (init || l.any p) := by
  induction l generalizing init with
  | nil => simp
  | cons a l ih =>
    rw [List.foldl_cons, List.any_cons, ih]
    by_cases h : p a = true <;> cases init <;> simp [h]

theorem foldl_and_not (q : α → Bool) (l : List α) (init : Bool) :
    l.foldl (fun r e => r && !q e) init = (init && !(l.any q)) := by
  induction l generalizing init with
  | nil => simp
  | cons a l ih =>
    rw [List.foldl_cons, List.any_cons, ih]
    by_cases h : q a = true <;> cases init <;> simp [h]

/-- C8: the Path Filter accepts a relative path iff: with an empty
inclusion-pattern list it accepts by default, otherwise at least one inclusion
pattern matches (regexes, or literal substring matches when literal mode is
configured); any matching exclusion pattern overrides to reject; and a
configured positive minimum size with a concrete file path rejects a file
whose size floor-divided by 1024 is below the threshold, overriding the
pattern steps. -/
theorem C8_theorem (research : String → String → Bool) (cfg : DiffCfg)
    (name : String) (size? : Option ℕ) :
    diffFilter research cfg name size? = specAccept research cfg name size? := by
  cases size? with
  | none =>
    cases h1 : cfg.filters.isEmpty <;>
      cases h2 : cfg.excludes.any (fun e => compiledSearch research cfg.regexfilters e name) <;>
        simp [diffFilter, specAccept, foldl_if_true, foldl_if_false, foldl_or_left,
          foldl_and_not, h1, h2, Bool.and_comm]
  | some sz =>
    by_cases hs : cfg.sizeLimit > 0 <;>
      by_cases hsz : sz / 1024 < cfg.sizeLimit <;>
        cases h1 : cfg.filters.isEmpty <;>
          cases h2 : cfg.excludes.any (fun e => compiledSearch research cfg.regexfilters e name) <;>
            simp [diffFilter, specAccept, foldl_if_true, foldl_if_false, foldl_or_left,
              foldl_and_not, hs, hsz, h1, h2, Bool.and_comm]

/-! ## Claim C10: a missing destination at construction is a hard error -/

/-- C10: for every non-`None` src, constructing `Diff(src, None)` raises from
the constructor, because the guard of the `dst` normalization tests `src`
rather than `dst`; a `Diff` can never be created with only the source root
set. -/
theorem C10_theorem (s : String) :
    diffInit (some s) none = .error .attributeError := rfl

/-! ## Claim C3: count consistency after mutations -/

/-- The property claimed invariant: each stored count equals the number of
child entries of the corresponding mapping, the total being their sum. -/
def countsConsistent (d : Diff) : Prop :=
  d.createcount = dmCount d.create ∧ d.updatecount = dmCount d.update ∧
    d.purgecount = dmCount d.purge ∧
    d.totalcount = d.createcount + d.updatecount + d.purgecount

instance (d : Diff) : Decidable (countsConsistent d) := by
  unfold countsConsistent; infer_instance

/-- C3 fails on the code: `add_create` appends a child entry but does not
recompute any count, so a fresh ChangeSet mutated by one `add_create` has one
stored child and `createcount = 0`. -/
theorem C3_counterexample :
    ¬ countsConsistent
      (Diff.add_create ⟨emptyDir, emptyDir⟩ Diff.mkEmpty ⟨Side.src, ["a"]⟩) := by
  decide

theorem update_counts_all_consistent (d : Diff) :
    countsConsistent (d.update_counts [.create, .update, .purge]) := by
  simp [Diff.update_counts, countsConsistent]

/-- C3, amended: the counts are recomputed by `run()` (which leaves them
consistent) and by the `remove_*` operations (which preserve consistency);
the `add_*` operations do not update any count, so counts can be stale after
them (see the counterexample). -/
theorem C3_theorem :
    (∀ research cfg w d, Diff.runM research cfg w = .ok d → countsConsistent d) ∧
    (∀ w d op path, countsConsistent d →
      countsConsistent (Diff.removeOp w d op path)) := by
  constructor
  · intro research cfg w d hrun
    unfold Diff.runM at hrun
    cases hd : dirdiff research cfg (w.src.size + w.dst.size + 1)
        (some (⟨Side.src, []⟩, w.src)) (some (⟨Side.dst, []⟩, w.dst)) with
    | error e => rw [hd] at hrun; exact absurd hrun (by simp [Except.bind])
    | ok d0 =>
      rw [hd] at hrun
      simp only [Except.bind, bind, pure, Except.pure] at hrun
      cases hrun
      exact update_counts_all_consistent d0
  · intro w d op path hcon
    obtain ⟨h1, h2, h3, h4⟩ := hcon
    unfold Diff.removeOp
    cases hres : w.resolve path with
    | none => exact ⟨h1, h2, h3, h4⟩
    | some node =>
      cases hlast : path.segs.getLast? with
      | none =>
        cases op <;>
          simp [Diff.update_counts, countsConsistent, h1, h2, h3]
      | some base =>
        cases op <;>
          simp [Diff.update_counts, countsConsistent, h1, h2, h3]

/-- Concrete instantiation of the amended C3 theorem. -/
theorem C3_witness :
    countsConsistent
      (Diff.removeOp ⟨emptyDir, emptyDir⟩ Diff.mkEmpty .create ⟨Side.src, ["a"]⟩) :=
  C3_theorem.2 ⟨emptyDir, emptyDir⟩ Diff.mkEmpty .create ⟨Side.src, ["a"]⟩ (by decide)

/-! ## Claim C5: dry run still mutates the filesystem -/

/-- C5 fails on the code: `__makedirs` accepts `dry_run` but invokes
`os.makedirs` unconditionally, so a dry run whose create set needs a missing
destination parent directory creates that directory.  Here a full dry run of
a one-file create set materializes `dst/p` while recording both the directory
and the file as successes. -/
theorem C5_theorem :
    ∃ r, Sync.runwithdiff ⟨true, true, true, false, false⟩ true 0
      { Diff.mkEmpty with create := [(⟨Side.src, ["p"]⟩, [⟨"f", false⟩])] }
      ⟨.dir 0 0 (.cons "p" (.dir 0 0 (.cons "f" (.file 1 1) .nil)) .nil), emptyDir⟩
      Stats.reset = .ok r ∧
      r.1.dst ≠ emptyDir ∧
      r.2.creates = [⟨Side.dst, ["p"]⟩, ⟨Side.dst, ["p", "f"]⟩] := by
  exact ⟨_, rfl, by decide, by decide⟩

/-! ## Claim C6: a per-item failure can propagate out of the run -/

/-- C6 fails on the code: in `__copydir` the `shutil.copystat(src, dst)` call
sits outside the try block, so its exceptions propagate out of
`runwithdiff`/`run()` and the failed path is never recorded.  Concretely, a
dry run of a create set holding one directory entry whose destination does not
exist skips `os.mkdir`, then `copystat` raises on the missing destination and
the exception escapes the whole run. -/
theorem C6_theorem :
    Sync.runwithdiff ⟨true, true, true, false, false⟩ true 0
      { Diff.mkEmpty with create := [(⟨Side.src, []⟩, [⟨"d", true⟩])] }
      ⟨.dir 0 0 (.cons "d" (.dir 2 0 .nil) .nil), emptyDir⟩
      Stats.reset = .error .osError := by
  rfl

/-! ## Claim C9: trimming never affects the original ChangeSet -/

/-- C9: `difftrim` mutates only the trimmed copy — the original ChangeSet is
unchanged by any trim — and a subsequent `diff()` regenerates both the
original and the trimmed ChangeSet as the full, untrimmed comparison
result. -/
theorem C9_theorem :
    (∀ w cl ul pl st st', Sync.difftrim w cl ul pl st = .ok st' →
      st'.origdiff = st.origdiff) ∧
    (∀ research cfg w st st', Sync.diffM research cfg w st = .ok st' →
      ∃ d, Diff.runM research cfg w = .ok d ∧
        st'.origdiff = some d ∧ st'.trimdiff = some d) := by
  constructor
  · intro w cl ul pl st st' h
    unfold Sync.difftrim at h
    cases hst : st.trimdiff with
    | none => rw [hst] at h; exact absurd h (by simp)
    | some t => rw [hst] at h; cases h; rfl
  · intro research cfg w st st' h
    unfold Sync.diffM at h
    cases hd : Diff.runM research cfg w with
    | error e => rw [hd] at h; exact absurd h (by simp [Except.bind])
    | ok d =>
      rw [hd] at h
      simp only [Except.bind, bind, pure, Except.pure] at h
      cases h
      exact ⟨d, rfl, rfl, rfl⟩

/-- Concrete instantiation of C9: a trim of every entry of a one-file diff
leaves the original untouched. -/
theorem C9_witness :
    (Sync.difftrim ⟨emptyDir, .dir 0 0 (.cons "x" (.file 5 1) .nil)⟩
        [] [] [⟨Side.dst, ["x"]⟩]
        ⟨some ⟨[], [], [(⟨Side.dst, []⟩, [⟨"x", false⟩])], 0, 0, 1, 1⟩,
         some ⟨[], [], [(⟨Side.dst, []⟩, [⟨"x", false⟩])], 0, 0, 1, 1⟩⟩ =
      .ok ⟨some ⟨[], [], [(⟨Side.dst, []⟩, [⟨"x", false⟩])], 0, 0, 1, 1⟩, some Diff.mkEmpty⟩) ∧
    (⟨some ⟨[], [], [(⟨Side.dst, []⟩, [⟨"x", false⟩])], 0, 0, 1, 1⟩,
        some Diff.mkEmpty⟩ : SyncSt).origdiff =
      (⟨some ⟨[], [], [(⟨Side.dst, []⟩, [⟨"x", false⟩])], 0, 0, 1, 1⟩,
        some ⟨[], [], [(⟨Side.dst, []⟩, [⟨"x", false⟩])], 0, 0, 1, 1⟩⟩ : SyncSt).origdiff := by
  constructor
  · rfl
  · exact C9_theorem.1 ⟨emptyDir, .dir 0 0 (.cons "x" (.file 5 1) .nil)⟩
      [] [] [⟨Side.dst, ["x"]⟩] _ _ (by rfl)

/-! ## Infrastructure: association-list and fold lemmas -/

/-- Segment-path prefix. -/
def SegPre (a b : List String) : Prop := ∃ t, a ++ t = b

theorem SegPre.refl (a : List String) : SegPre a a := ⟨[], by simp⟩

theorem SegPre.of_append (a t : List String) : SegPre a (a ++ t) := ⟨t, rfl⟩

theorem SegPre.trans {a b c : List String} (h1 : SegPre a b) (h2 : SegPre b c) :
    SegPre a c := by
  obtain ⟨t1, rfl⟩ := h1
  obtain ⟨t2, rfl⟩ := h2
  exact ⟨t1 ++ t2, by simp⟩

theorem SegPre.length_le {a b : List String} (h : SegPre a b) : a.length ≤ b.length := by
  obtain ⟨t, rfl⟩ := h
  simp

theorem SegPre.ne_of_longer {a b : List String} (x : String)
    (h : SegPre (a ++ [x]) b) : b ≠ a := by
  intro hb
  have hl := h.length_le
  rw [hb] at hl
  simp at hl

theorem dmGet_dmSet (m : DirMap) (k : FPath) (v : List Child) (k' : FPath) :
    dmGet (dmSet m k v) k' = if k = k' then some v else dmGet m k' := by
  induction m with
  | nil => simp [dmSet, dmGet]
  | cons e r ih =>
    by_cases he : e.1 = k
    · by_cases h : k = k' <;> simp [dmSet, dmGet, he, h]
    · by_cases h' : e.1 = k'
      · have hk : ¬ k = k' := fun hh => he (h'.trans hh.symm)
        simp [dmSet, dmGet, he, h', hk, Ne.symm hk]
      · simp [dmSet, dmGet, he, h', ih]

theorem dmGet_nil (k : FPath) : dmGet [] k = none := rfl

theorem dmSet_mem {m : DirMap} {k : FPath} {v : List Child} {kv : FPath × List Child}
    (h : kv ∈ dmSet m k v) : kv = (k, v) ∨ kv ∈ m := by
  induction m with
  | nil => simp [dmSet] at h; exact Or.inl h
  | cons e r ih =>
    by_cases he : e.1 = k
    · simp only [dmSet, he, if_pos] at h
      rcases List.mem_cons.1 h with h' | h'
      · exact Or.inl h'
      · exact Or.inr (List.mem_cons_of_mem e h')
    · simp only [dmSet, he, if_neg, ite_false] at h
      rcases List.mem_cons.1 h with h' | h'
      · exact Or.inr (by simp [h'])
      · rcases ih h' with h'' | h''
        · exact Or.inl h''
        · exact Or.inr (List.mem_cons_of_mem e h'')

theorem dmUpdate_mem {m o : DirMap} {kv : FPath × List Child}
    (h : kv ∈ dmUpdate m o) : kv ∈ m ∨ kv ∈ o := by
  unfold dmUpdate at h
  induction o generalizing m with
  | nil => simp at h; exact Or.inl h
  | cons e r ih =>
    rw [List.foldl_cons] at h
    rcases ih h with h' | h'
    · rcases dmSet_mem h' with h'' | h''
      · exact Or.inr (by simp [h''])
      · exact Or.inl h''
    · exact Or.inr (List.mem_cons_of_mem e h')

theorem dmGet_dmUpdate_notin {m o : DirMap} {k : FPath}
    (h : ∀ kv ∈ o, kv.1 ≠ k) : dmGet (dmUpdate m o) k = dmGet m k := by
  unfold dmUpdate
  induction o generalizing m with
  | nil => simp
  | cons e r ih =>
    rw [List.foldl_cons]
    rw [ih (fun kv hkv => h kv (List.mem_cons_of_mem e hkv))]
    rw [dmGet_dmSet]
    have he : e.1 ≠ k := h e (by simp)
    simp [he]

theorem dmAdd_mem {m : DirMap} {p : FPath} {b : Bool} {kv : FPath × List Child}
    (h : kv ∈ dmAdd m p b) :
    kv ∈ m ∨ ∃ base, p.segs.getLast? = some base ∧
      kv = (⟨p.side, p.segs.dropLast⟩,
        (dmGet m ⟨p.side, p.segs.dropLast⟩).getD [] ++ [⟨base, b⟩]) := by
  unfold dmAdd at h
  cases hlast : p.segs.getLast? with
  | none => rw [hlast] at h; exact Or.inl h
  | some base =>
    rw [hlast] at h
    cases hget : dmGet m ⟨p.side, p.segs.dropLast⟩ with
    | none =>
      rw [hget] at h
      rcases dmSet_mem h with h' | h'
      · exact Or.inr ⟨base, rfl, by simp [hget, h']⟩
      · exact Or.inl h'
    | some l =>
      rw [hget] at h
      rcases dmSet_mem h with h' | h'
      · exact Or.inr ⟨base, rfl, by simp [hget, h']⟩
      · exact Or.inl h'

theorem dmGet_dmAdd_parent (m : DirMap) (side : Side) (pre : List String) (x : String)
    (b : Bool) :
    dmGet (dmAdd m ⟨side, pre ++ [x]⟩ b) ⟨side, pre⟩ =
      some ((dmGet m ⟨side, pre⟩).getD [] ++ [⟨x, b⟩]) := by
  unfold dmAdd
  simp only [List.getLast?_concat, List.dropLast_concat]
  cases hget : dmGet m ⟨side, pre⟩ <;> simp [hget, dmGet_dmSet]

theorem dmGet_dmAdd_other (m : DirMap) (p : FPath) (b : Bool) (k : FPath)
    (hk : ⟨p.side, p.segs.dropLast⟩ ≠ k) :
    dmGet (dmAdd m p b) k = dmGet m k := by
  unfold dmAdd
  cases hlast : p.segs.getLast? with
  | none => rfl
  | some base =>
    cases hget : dmGet m ⟨p.side, p.segs.dropLast⟩ <;>
      simp [hget, dmGet_dmSet, hk]

/-- Invariant preservation through `foldlM` over `Except`. -/
theorem foldlM_inv {α β : Type} (P : β → Prop) {f : β → α → Except PyErr β}
    {l : List α} {b r : β}
    (h : l.foldlM f b = .ok r) (hb : P b)
    (hf : ∀ acc a r', a ∈ l → P acc → f acc a = .ok r' → P r') : P r := by
  induction l generalizing b with
  | nil =>
    simp only [List.foldlM, pure, Except.pure, Except.ok.injEq] at h
    exact h ▸ hb
  | cons a l ih =>
    rw [List.foldlM_cons] at h
    cases hfa : f b a with
    | error e => rw [hfa] at h; simp [Except.bind, bind] at h
    | ok b' =>
      rw [hfa] at h
      simp only [Except.bind, bind] at h
      exact ih h (hf b a b' (by simp) hb hfa)
        (fun acc a' r' ha' => hf acc a' r' (List.mem_cons_of_mem a ha'))

theorem lookup_mem_names : ∀ {cs : FSList} {x : String} {t : FSTree},
    cs.lookup x = some t → x ∈ cs.names
  | .nil, x, t, h => by simp [FSList.lookup] at h
  | .cons n t' r, x, t, h => by
    by_cases hn : n = x
    · simp [FSList.names, hn]
    · simp only [FSList.lookup, hn, if_neg, ite_false] at h
      simp only [FSList.names, List.mem_cons]
      exact Or.inr (lookup_mem_names h)

theorem names_nodup_of_wfb : ∀ {cs : FSList}, cs.wfb = true → cs.names.Nodup
  | .nil, _ => by simp [FSList.names]
  | .cons n t r, h => by
    simp only [FSList.wfb, Bool.and_eq_true, Bool.not_eq_true'] at h
    simp only [FSList.names, List.nodup_cons]
    refine ⟨?_, names_nodup_of_wfb h.2⟩
    intro hmem
    have hc := h.1.1.2
    rw [List.contains_eq_any_beq] at hc
    simp at hc
    exact hc n hmem rfl

/-! ## Key structure of the ChangeSets the engine produces -/

/-- The real path of a comparison side (`None` stands for the scratch
directory). -/
def rootOf (o : Option (FPath × FSTree)) : FPath :=
  (o.getD (⟨Side.tmp, []⟩, emptyDir)).1

/-- All keys of a mapping lie at or below a root path, on the root's side. -/
def keysBelow (m : DirMap) (root : FPath) : Prop :=
  ∀ kv ∈ m, kv.1.side = root.side ∧ SegPre root.segs kv.1.segs

theorem keysBelow_empty (root : FPath) : keysBelow [] root := by
  intro kv hkv
  simp at hkv

theorem keysBelow_dmAdd {m : DirMap} {root : FPath} (x : String) (b : Bool)
    (h : keysBelow m root) :
    keysBelow (dmAdd m ⟨root.side, root.segs ++ [x]⟩ b) root := by
  intro kv hkv
  rcases dmAdd_mem hkv with h' | ⟨base, _, rfl⟩
  · exact h kv h'
  · exact ⟨rfl, by rw [List.dropLast_concat]; exact SegPre.refl _⟩

theorem keysBelow_dmUpdate {m o : DirMap} {root rootc : FPath}
    (hm : keysBelow m root) (ho : keysBelow o rootc)
    (hside : rootc.side = root.side) (hpre : SegPre root.segs rootc.segs) :
    keysBelow (dmUpdate m o) root := by
  intro kv hkv
  rcases dmUpdate_mem hkv with h' | h'
  · exact hm kv h'
  · obtain ⟨hs, hp⟩ := ho kv h'
    exact ⟨hs.trans hside, hpre.trans hp⟩

/-- The three mappings of a ChangeSet all have keys below the two comparison
roots. -/
def keysTriple (d : Diff) (sp dp : FPath) : Prop :=
  keysBelow d.create sp ∧ keysBelow d.update sp ∧ keysBelow d.purge dp

/-- Recursion specification used to propagate key facts through the engine. -/
def recurKeys (recur : Option (FPath × FSTree) → Option (FPath × FSTree) →
    Except PyErr Diff) : Prop :=
  ∀ s? d? r, recur s? d? = .ok r → keysTriple r (rootOf s?) (rootOf d?)

theorem createStep_keys {research : String → String → Bool} {cfg : DiffCfg} {recur}
    {sp dp : FPath} {scs : FSList} {acc : Diff} {x : String} {r : Diff}
    (hrec : recurKeys recur) (hP : keysTriple acc sp dp)
    (h : createStep research cfg recur sp scs acc x = .ok r) :
    keysTriple r sp dp := by
  obtain ⟨hc, hu, hp⟩ := hP
  unfold createStep at h
  cases hl : scs.lookup x with
  | none => rw [hl] at h; cases h; exact ⟨hc, hu, hp⟩
  | some node =>
    rw [hl] at h
    cases node with
    | file mt sz =>
      simp only [pure, Except.pure, Except.ok.injEq] at h
      subst h
      split_ifs with hf
      · exact ⟨keysBelow_dmAdd x false hc, hu, hp⟩
      · exact ⟨hc, hu, hp⟩
    | dir mt sz cs =>
      have hacc' : keysTriple (if cfg.includedirs && diffFilter research cfg x (some sz) then
          acc.addOpK .create ⟨sp.side, sp.segs ++ [x]⟩ true else acc) sp dp := by
        by_cases hf : (cfg.includedirs && diffFilter research cfg x (some sz)) = true
        · simp only [hf, ite_true]
          exact ⟨keysBelow_dmAdd x true hc, hu, hp⟩
        · simp only [hf, ite_false, Bool.false_eq_true]
          exact ⟨hc, hu, hp⟩
      obtain ⟨hc', hu', hp'⟩ := hacc'
      by_cases hr : cfg.recursive = true
      · simp only [hr, ite_true, bind, Except.bind] at h
        cases hrecur : recur (some (⟨sp.side, sp.segs ++ [x]⟩, .dir mt sz cs)) none with
        | error e => rw [hrecur] at h; simp at h
        | ok d =>
          rw [hrecur] at h
          simp only [pure, Except.pure, Except.ok.injEq] at h
          subst h
          have hd := hrec _ _ _ hrecur
          exact ⟨keysBelow_dmUpdate hc' hd.1 rfl (SegPre.of_append _ _), hu', hp'⟩
      · simp only [hr, ite_false, Bool.false_eq_true, pure, Except.pure,
          Except.ok.injEq] at h
        subst h
        exact ⟨hc', hu', hp'⟩

theorem updateStep_keys {research : String → String → Bool} {cfg : DiffCfg} {recur}
    {sp dp : FPath} {scs dcs : FSList} {acc : Diff} {x : String} {r : Diff}
    (hrec : recurKeys recur) (hP : keysTriple acc sp dp)
    (h : updateStep research cfg recur sp dp scs dcs acc x = .ok r) :
    keysTriple r sp dp := by
  obtain ⟨hc, hu, hp⟩ := hP
  unfold updateStep at h
  cases hl : scs.lookup x with
  | none => rw [hl] at h; cases h; exact ⟨hc, hu, hp⟩
  | some snode =>
    rw [hl] at h
    cases hld : dcs.lookup x with
    | none =>
      rw [hld] at h
      cases snode <;> (cases h; exact ⟨hc, hu, hp⟩)
    | some dnode =>
      rw [hld] at h
      cases snode with
      | file mtS szS =>
        simp only [pure, Except.pure, Except.ok.injEq] at h
        subst h
        split_ifs <;>
          first
          | exact ⟨hc, keysBelow_dmAdd x false (keysBelow_dmAdd x false hu), hp⟩
          | exact ⟨hc, keysBelow_dmAdd x false hu, hp⟩
          | exact ⟨hc, hu, hp⟩
      | dir mtS szS cs =>
        by_cases hr : cfg.recursive = true
        · simp only [hr, ite_true, bind, Except.bind] at h
          cases hrecur : recur (some (⟨sp.side, sp.segs ++ [x]⟩, .dir mtS szS cs))
              (some (⟨dp.side, dp.segs ++ [x]⟩, dnode)) with
          | error e => rw [hrecur] at h; simp at h
          | ok d =>
            rw [hrecur] at h
            simp only [pure, Except.pure, Except.ok.injEq] at h
            subst h
            have hd := hrec _ _ _ hrecur
            exact ⟨keysBelow_dmUpdate hc hd.1 rfl (SegPre.of_append _ _),
              keysBelow_dmUpdate hu hd.2.1 rfl (SegPre.of_append _ _),
              keysBelow_dmUpdate hp hd.2.2 rfl (SegPre.of_append _ _)⟩
        · simp only [hr, ite_false, Bool.false_eq_true, pure, Except.pure,
            Except.ok.injEq] at h
          subst h
          exact ⟨hc, hu, hp⟩

theorem purgeStep_keys {research : String → String → Bool} {cfg : DiffCfg} {recur}
    {sp dp : FPath} {dcs : FSList} {acc : Diff} {x : String} {r : Diff}
    (hrec : recurKeys recur) (hP : keysTriple acc sp dp)
    (h : purgeStep research cfg recur dp dcs acc x = .ok r) :
    keysTriple r sp dp := by
  obtain ⟨hc, hu, hp⟩ := hP
  unfold purgeStep at h
  cases hl : dcs.lookup x with
  | none => rw [hl] at h; cases h; exact ⟨hc, hu, hp⟩
  | some node =>
    rw [hl] at h
    cases node with
    | file mt sz =>
      simp only [pure, Except.pure, Except.ok.injEq] at h
      subst h
      split_ifs with hf
      · exact ⟨hc, hu, keysBelow_dmAdd x false hp⟩
      · exact ⟨hc, hu, hp⟩
    | dir mt sz cs =>
      have hacc' : keysTriple (if diffFilter research cfg x none then
          acc.addOpK .purge ⟨dp.side, dp.segs ++ [x]⟩ true else acc) sp dp := by
        by_cases hf : diffFilter research cfg x none = true
        · simp only [hf, ite_true]
          exact ⟨hc, hu, keysBelow_dmAdd x true hp⟩
        · simp only [hf, ite_false, Bool.false_eq_true]
          exact ⟨hc, hu, hp⟩
      obtain ⟨hc', hu', hp'⟩ := hacc'
      by_cases hr : cfg.recursive = true
      · simp only [hr, ite_true, bind, Except.bind] at h
        cases hrecur : recur none (some (⟨dp.side, dp.segs ++ [x]⟩, .dir mt sz cs)) with
        | error e => rw [hrecur] at h; simp at h
        | ok d =>
          rw [hrecur] at h
          simp only [pure, Except.pure, Except.ok.injEq] at h
          subst h
          have hd := hrec _ _ _ hrecur
          exact ⟨hc', hu', keysBelow_dmUpdate hp' hd.2.2 rfl (SegPre.of_append _ _)⟩
      · simp only [hr, ite_false, Bool.false_eq_true, pure, Except.pure,
          Except.ok.injEq] at h
        subst h
        exact ⟨hc', hu', hp'⟩

theorem processCmp_keys {research : String → String → Bool} {cfg : DiffCfg} {recur}
    {sp dp : FPath} {scs dcs : FSList} {res : Diff}
    (hrec : recurKeys recur)
    (h : processCmp research cfg recur sp dp scs dcs = .ok res) :
    keysTriple res sp dp := by
  unfold processCmp at h
  simp only [bind, Except.bind] at h
  cases h1 : (cmpLeftOnly scs dcs).foldlM (createStep research cfg recur sp scs)
      Diff.mkEmpty with
  | error e => rw [h1] at h; simp at h
  | ok d1 =>
    rw [h1] at h
    dsimp only at h
    cases h2 : (cmpCommon scs dcs).foldlM
        (updateStep research cfg recur sp dp scs dcs) d1 with
    | error e => rw [h2] at h; simp at h
    | ok d2 =>
      rw [h2] at h
      dsimp only at h
      have hP1 : keysTriple d1 sp dp :=
        foldlM_inv (fun d => keysTriple d sp dp) h1
          ⟨keysBelow_empty sp, keysBelow_empty sp, keysBelow_empty dp⟩
          (fun acc a r' _ hP hst => createStep_keys hrec hP hst)
      have hP2 : keysTriple d2 sp dp :=
        foldlM_inv (fun d => keysTriple d sp dp) h2 hP1
          (fun acc a r' _ hP hst => updateStep_keys hrec hP hst)
      exact foldlM_inv (fun d => keysTriple d sp dp) h hP2
        (fun acc a r' _ hP hst => purgeStep_keys hrec hP hst)

theorem dirdiff_keys (research : String → String → Bool) (cfg : DiffCfg) :
    ∀ (fuel : ℕ) (s? d? : Option (FPath × FSTree)) (res : Diff),
    dirdiff research cfg fuel s? d? = .ok res →
    keysTriple res (rootOf s?) (rootOf d?) := by
  intro fuel
  induction fuel with
  | zero => intro s? d? res h; simp [dirdiff] at h
  | succ fuel ih =>
    intro s? d? res h
    unfold dirdiff at h
    dsimp only at h
    cases hsT : (s?.getD (⟨Side.tmp, []⟩, emptyDir)).2 with
    | file mt sz => rw [hsT] at h; simp at h
    | dir mts szs scs =>
      rw [hsT] at h
      cases hdT : (d?.getD (⟨Side.tmp, []⟩, emptyDir)).2 with
      | file mt sz => rw [hdT] at h; simp at h
      | dir mtd szd dcs =>
        rw [hdT] at h
        exact processCmp_keys (fun s' d' r hr => ih s' d' r hr) h

/-! ## Level characterization: what one comparison level stores under its key -/

/-- The child entries the create loop stores under the level key for the given
left-only names. -/
def createLevelOf (research : String → String → Bool) (cfg : DiffCfg)
    (scs : FSList) (l : List String) : List Child :=
  l.flatMap (fun x =>
    match scs.lookup x with
    | some (.file _ sz) =>
      if diffFilter research cfg x (some sz) then [⟨x, false⟩] else []
    | some (.dir _ sz _) =>
      if cfg.includedirs && diffFilter research cfg x (some sz) then [⟨x, true⟩] else []
    | none => [])

/-- The child entries the update loop stores under the level key for the given
common names (two entries for one name when both the mtime test and
`forceUpdate` fire). -/
def updateLevelOf (research : String → String → Bool) (cfg : DiffCfg)
    (scs dcs : FSList) (l : List String) : List Child :=
  l.flatMap (fun x =>
    match scs.lookup x, dcs.lookup x with
    | some (.file mtS szS), some dn =>
      (if cmp_mtime mtS dn.mtime cfg.timeprecision cfg.newer &&
          diffFilter research cfg x (some szS) then [⟨x, false⟩] else []) ++
        (if cfg.forceUpdate then [⟨x, false⟩] else [])
    | _, _ => [])

/-- The child entries the purge loop stores under the level key for the given
right-only names. -/
def purgeLevelOf (research : String → String → Bool) (cfg : DiffCfg)
    (dcs : FSList) (l : List String) : List Child :=
  l.flatMap (fun x =>
    match dcs.lookup x with
    | some (.file _ _) => if diffFilter research cfg x none then [⟨x, false⟩] else []
    | some (.dir _ _ _) => if diffFilter research cfg x none then [⟨x, true⟩] else []
    | none => [])

/-- Append further children to an optional stored child list (what a sequence
of `_add` calls does to one key of a mapping). -/
def appendOpt (o : Option (List Child)) (cl : List Child) : Option (List Child) :=
  if cl = [] then o else some (o.getD [] ++ cl)

theorem appendOpt_nil (o : Option (List Child)) : appendOpt o [] = o := rfl

theorem appendOpt_append (o : Option (List Child)) (a b : List Child) :
    appendOpt (appendOpt o a) b = appendOpt o (a ++ b) := by
  by_cases hb : b = []
  · simp [hb, appendOpt]
  · by_cases ha : a = []
    · simp [ha, appendOpt, hb]
    · have hab : a ++ b ≠ [] := by simp [ha]
      simp [appendOpt, ha, hb, hab]

theorem notin_of_below_child {m : DirMap} (side : Side) (pre : List String) (x : String)
    (hm : keysBelow m ⟨side, pre ++ [x]⟩) :
    ∀ kv ∈ m, kv.1 ≠ ⟨side, pre⟩ := by
  intro kv hkv hk
  obtain ⟨_, hpre⟩ := hm kv hkv
  have := hpre.ne_of_longer x
  exact this (congrArg FPath.segs hk)

theorem createLevelOf_single (research : String → String → Bool) (cfg : DiffCfg)
    (scs : FSList) (x : String) :
    createLevelOf research cfg scs [x] =
      (match scs.lookup x with
       | some (.file _ sz) =>
         if diffFilter research cfg x (some sz) then [⟨x, false⟩] else []
       | some (.dir _ sz _) =>
         if cfg.includedirs && diffFilter research cfg x (some sz) then [⟨x, true⟩] else []
       | none => []) := by
  unfold createLevelOf
  simp

theorem createStep_level {research : String → String → Bool} {cfg : DiffCfg} {recur}
    {sp : FPath} {scs : FSList} {acc : Diff} {x : String} {r : Diff}
    (hrec : recurKeys recur)
    (h : createStep research cfg recur sp scs acc x = .ok r) :
    dmGet r.create sp =
      appendOpt (dmGet acc.create sp) (createLevelOf research cfg scs [x]) ∧
    r.update = acc.update ∧ r.purge = acc.purge := by
  unfold createStep at h
  cases hl : scs.lookup x with
  | none =>
    rw [hl] at h; cases h
    refine ⟨?_, rfl, rfl⟩
    simp only [createLevelOf_single, hl]
    exact (appendOpt_nil _).symm
  | some node =>
    rw [hl] at h
    cases node with
    | file mt sz =>
      dsimp only at h
      simp only [pure, Except.pure, Except.ok.injEq] at h
      subst h
      refine ⟨?_, ?_, ?_⟩
      · simp only [createLevelOf_single, hl]
        split_ifs with hf
        · show dmGet (dmAdd acc.create ⟨sp.side, sp.segs ++ [x]⟩ false) sp = _
          rw [dmGet_dmAdd_parent acc.create sp.side sp.segs x false]
          simp [appendOpt]
        · exact (appendOpt_nil _).symm
      · split_ifs <;> rfl
      · split_ifs <;> rfl
    | dir mt sz cs =>
      dsimp only at h
      have hacc1 : dmGet (if cfg.includedirs && diffFilter research cfg x (some sz) then
            acc.addOpK .create ⟨sp.side, sp.segs ++ [x]⟩ true else acc).create sp =
          appendOpt (dmGet acc.create sp) (createLevelOf research cfg scs [x]) := by
        simp only [createLevelOf_single, hl]
        split_ifs with hf
        · show dmGet (dmAdd acc.create ⟨sp.side, sp.segs ++ [x]⟩ true) sp = _
          rw [dmGet_dmAdd_parent acc.create sp.side sp.segs x true]
          simp [appendOpt]
        · exact (appendOpt_nil _).symm
      by_cases hr : cfg.recursive = true
      · rw [if_pos hr] at h
        simp only [bind, Except.bind] at h
        cases hrecur : recur (some (⟨sp.side, sp.segs ++ [x]⟩, .dir mt sz cs)) none with
        | error e => rw [hrecur] at h; simp at h
        | ok d =>
          rw [hrecur] at h
          simp only [pure, Except.pure, Except.ok.injEq] at h
          subst h
          have hd := (hrec _ _ _ hrecur).1
          refine ⟨?_, ?_, ?_⟩
          · dsimp only
            rw [dmGet_dmUpdate_notin (notin_of_below_child sp.side sp.segs x hd)]
            exact hacc1
          · dsimp only
            split_ifs <;> rfl
          · dsimp only
            split_ifs <;> rfl
      · rw [if_neg hr] at h
        simp only [pure, Except.pure, Except.ok.injEq] at h
        subst h
        refine ⟨hacc1, ?_, ?_⟩ <;> (split_ifs <;> rfl)

theorem updateLevelOf_single (research : String → String → Bool) (cfg : DiffCfg)
    (scs dcs : FSList) (x : String) :
    updateLevelOf research cfg scs dcs [x] =
      (match scs.lookup x, dcs.lookup x with
       | some (.file mtS szS), some dn =>
         (if cmp_mtime mtS dn.mtime cfg.timeprecision cfg.newer &&
             diffFilter research cfg x (some szS) then [⟨x, false⟩] else []) ++
           (if cfg.forceUpdate then [⟨x, false⟩] else [])
       | _, _ => []) := by
  unfold updateLevelOf
  simp

theorem purgeLevelOf_single (research : String → String → Bool) (cfg : DiffCfg)
    (dcs : FSList) (x : String) :
    purgeLevelOf research cfg dcs [x] =
      (match dcs.lookup x with
       | some (.file _ _) => if diffFilter research cfg x none then [⟨x, false⟩] else []
       | some (.dir _ _ _) => if diffFilter research cfg x none then [⟨x, true⟩] else []
       | none => []) := by
  unfold purgeLevelOf
  simp

theorem updateStep_level {research : String → String → Bool} {cfg : DiffCfg} {recur}
    {sp dp : FPath} {scs dcs : FSList} {acc : Diff} {x : String} {r : Diff}
    (hrec : recurKeys recur)
    (h : updateStep research cfg recur sp dp scs dcs acc x = .ok r) :
    dmGet r.update sp =
      appendOpt (dmGet acc.update sp) (updateLevelOf research cfg scs dcs [x]) ∧
    dmGet r.create sp = dmGet acc.create sp ∧
    dmGet r.purge dp = dmGet acc.purge dp := by
  unfold updateStep at h
  cases hls : scs.lookup x with
  | none =>
    rw [hls] at h; cases h
    refine ⟨?_, rfl, rfl⟩
    simp only [updateLevelOf_single, hls]
    exact (appendOpt_nil _).symm
  | some snode =>
    rw [hls] at h
    cases hld : dcs.lookup x with
    | none =>
      rw [hld] at h
      cases snode with
      | file mtS szS =>
        cases h
        refine ⟨?_, rfl, rfl⟩
        simp only [updateLevelOf_single, hls, hld]
        exact (appendOpt_nil _).symm
      | dir mtS szS cs =>
        cases h
        refine ⟨?_, rfl, rfl⟩
        simp only [updateLevelOf_single, hls, hld]
        exact (appendOpt_nil _).symm
    | some dnode =>
      rw [hld] at h
      cases snode with
      | file mtS szS =>
        dsimp only at h
        simp only [pure, Except.pure, Except.ok.injEq] at h
        subst h
        refine ⟨?_, ?_, ?_⟩
        · simp only [updateLevelOf_single, hls, hld]
          split_ifs with h1 h2
          · show dmGet (dmAdd (dmAdd acc.update ⟨sp.side, sp.segs ++ [x]⟩ false)
              ⟨sp.side, sp.segs ++ [x]⟩ false) sp = _
            rw [dmGet_dmAdd_parent, dmGet_dmAdd_parent]
            simp [appendOpt]
          · show dmGet (dmAdd acc.update ⟨sp.side, sp.segs ++ [x]⟩ false) sp = _
            rw [dmGet_dmAdd_parent]
            simp [appendOpt]
          · show dmGet (dmAdd acc.update ⟨sp.side, sp.segs ++ [x]⟩ false) sp = _
            rw [dmGet_dmAdd_parent]
            simp [appendOpt]
          · exact (appendOpt_nil _).symm
        · split_ifs <;> rfl
        · split_ifs <;> rfl
      | dir mtS szS cs =>
        dsimp only at h
        by_cases hr : cfg.recursive = true
        · rw [if_pos hr] at h
          simp only [bind, Except.bind] at h
          cases hrecur : recur (some (⟨sp.side, sp.segs ++ [x]⟩, .dir mtS szS cs))
              (some (⟨dp.side, dp.segs ++ [x]⟩, dnode)) with
          | error e => rw [hrecur] at h; simp at h
          | ok d =>
            rw [hrecur] at h
            simp only [pure, Except.pure, Except.ok.injEq] at h
            subst h
            have hd := hrec _ _ _ hrecur
            refine ⟨?_, ?_, ?_⟩
            · dsimp only
              rw [dmGet_dmUpdate_notin (notin_of_below_child sp.side sp.segs x hd.2.1)]
              simp only [updateLevelOf_single, hls, hld]
              exact (appendOpt_nil _).symm
            · dsimp only
              rw [dmGet_dmUpdate_notin (notin_of_below_child sp.side sp.segs x hd.1)]
            · dsimp only
              rw [dmGet_dmUpdate_notin (notin_of_below_child dp.side dp.segs x hd.2.2)]
        · rw [if_neg hr] at h
          cases h
          refine ⟨?_, rfl, rfl⟩
          simp only [updateLevelOf_single, hls, hld]
          exact (appendOpt_nil _).symm

theorem purgeStep_level {research : String → String → Bool} {cfg : DiffCfg} {recur}
    {dp : FPath} {dcs : FSList} {acc : Diff} {x : String} {r : Diff}
    (hrec : recurKeys recur)
    (h : purgeStep research cfg recur dp dcs acc x = .ok r) :
    dmGet r.purge dp =
      appendOpt (dmGet acc.purge dp) (purgeLevelOf research cfg dcs [x]) ∧
    r.create = acc.create ∧ r.update = acc.update := by
  unfold purgeStep at h
  cases hl : dcs.lookup x with
  | none =>
    rw [hl] at h; cases h
    refine ⟨?_, rfl, rfl⟩
    simp only [purgeLevelOf_single, hl]
    exact (appendOpt_nil _).symm
  | some node =>
    rw [hl] at h
    cases node with
    | file mt sz =>
      dsimp only at h
      simp only [pure, Except.pure, Except.ok.injEq] at h
      subst h
      refine ⟨?_, ?_, ?_⟩
      · simp only [purgeLevelOf_single, hl]
        split_ifs with hf
        · show dmGet (dmAdd acc.purge ⟨dp.side, dp.segs ++ [x]⟩ false) dp = _
          rw [dmGet_dmAdd_parent acc.purge dp.side dp.segs x false]
          simp [appendOpt]
        · exact (appendOpt_nil _).symm
      · split_ifs <;> rfl
      · split_ifs <;> rfl
    | dir mt sz cs =>
      dsimp only at h
      have hacc1 : dmGet (if diffFilter research cfg x none then
            acc.addOpK .purge ⟨dp.side, dp.segs ++ [x]⟩ true else acc).purge dp =
          appendOpt (dmGet acc.purge dp) (purgeLevelOf research cfg dcs [x]) := by
        simp only [purgeLevelOf_single, hl]
        split_ifs with hf
        · show dmGet (dmAdd acc.purge ⟨dp.side, dp.segs ++ [x]⟩ true) dp = _
          rw [dmGet_dmAdd_parent acc.purge dp.side dp.segs x true]
          simp [appendOpt]
        · exact (appendOpt_nil _).symm
      by_cases hr : cfg.recursive = true
      · rw [if_pos hr] at h
        simp only [bind, Except.bind] at h
        cases hrecur : recur none (some (⟨dp.side, dp.segs ++ [x]⟩, .dir mt sz cs)) with
        | error e => rw [hrecur] at h; simp at h
        | ok d =>
          rw [hrecur] at h
          simp only [pure, Except.pure, Except.ok.injEq] at h
          subst h
          have hd := (hrec _ _ _ hrecur).2.2
          refine ⟨?_, ?_, ?_⟩
          · dsimp only
            rw [dmGet_dmUpdate_notin (notin_of_below_child dp.side dp.segs x hd)]
            exact hacc1
          · dsimp only
            split_ifs <;> rfl
          · dsimp only
            split_ifs <;> rfl
      · rw [if_neg hr] at h
        simp only [pure, Except.pure, Except.ok.injEq] at h
        subst h
        refine ⟨hacc1, ?_, ?_⟩ <;> (split_ifs <;> rfl)

theorem foldlM_createStep_level {research : String → String → Bool} {cfg : DiffCfg}
    {recur} {sp : FPath} {scs : FSList} (hrec : recurKeys recur) :
    ∀ (l : List String) (acc r : Diff),
    List.foldlM (createStep research cfg recur sp scs) acc l = .ok r →
    dmGet r.create sp =
      appendOpt (dmGet acc.create sp) (createLevelOf research cfg scs l) ∧
    r.update = acc.update ∧ r.purge = acc.purge := by
  intro l
  induction l with
  | nil =>
    intro acc r h
    simp only [List.foldlM, pure, Except.pure, Except.ok.injEq] at h
    subst h
    refine ⟨?_, rfl, rfl⟩
    rw [show createLevelOf research cfg scs [] = [] from rfl, appendOpt_nil]
  | cons x l ih =>
    intro acc r h
    rw [List.foldlM_cons] at h
    cases hst : createStep research cfg recur sp scs acc x with
    | error e => rw [hst] at h; simp [bind, Except.bind] at h
    | ok acc' =>
      rw [hst] at h
      dsimp only [bind, Except.bind] at h
      obtain ⟨hlvl, hu, hp⟩ := createStep_level hrec hst
      obtain ⟨hlvl', hu', hp'⟩ := ih acc' r h
      refine ⟨?_, hu'.trans hu, hp'.trans hp⟩
      rw [hlvl', hlvl, appendOpt_append]
      congr 1
      simp [createLevelOf]

theorem foldlM_updateStep_level {research : String → String → Bool} {cfg : DiffCfg}
    {recur} {sp dp : FPath} {scs dcs : FSList} (hrec : recurKeys recur) :
    ∀ (l : List String) (acc r : Diff),
    List.foldlM (updateStep research cfg recur sp dp scs dcs) acc l = .ok r →
    dmGet r.update sp =
      appendOpt (dmGet acc.update sp) (updateLevelOf research cfg scs dcs l) ∧
    dmGet r.create sp = dmGet acc.create sp ∧
    dmGet r.purge dp = dmGet acc.purge dp := by
  intro l
  induction l with
  | nil =>
    intro acc r h
    simp only [List.foldlM, pure, Except.pure, Except.ok.injEq] at h
    subst h
    refine ⟨?_, rfl, rfl⟩
    rw [show updateLevelOf research cfg scs dcs [] = [] from rfl, appendOpt_nil]
  | cons x l ih =>
    intro acc r h
    rw [List.foldlM_cons] at h
    cases hst : updateStep research cfg recur sp dp scs dcs acc x with
    | error e => rw [hst] at h; simp [bind, Except.bind] at h
    | ok acc' =>
      rw [hst] at h
      dsimp only [bind, Except.bind] at h
      obtain ⟨hlvl, hc, hp⟩ := updateStep_level hrec hst
      obtain ⟨hlvl', hc', hp'⟩ := ih acc' r h
      refine ⟨?_, hc'.trans hc, hp'.trans hp⟩
      rw [hlvl', hlvl, appendOpt_append]
      congr 1
      simp [updateLevelOf]

theorem foldlM_purgeStep_level {research : String → String → Bool} {cfg : DiffCfg}
    {recur} {dp : FPath} {dcs : FSList} (hrec : recurKeys recur) :
    ∀ (l : List String) (acc r : Diff),
    List.foldlM (purgeStep research cfg recur dp dcs) acc l = .ok r →
    dmGet r.purge dp =
      appendOpt (dmGet acc.purge dp) (purgeLevelOf research cfg dcs l) ∧
    r.create = acc.create ∧ r.update = acc.update := by
  intro l
  induction l with
  | nil =>
    intro acc r h
    simp only [List.foldlM, pure, Except.pure, Except.ok.injEq] at h
    subst h
    refine ⟨?_, rfl, rfl⟩
    rw [show purgeLevelOf research cfg dcs [] = [] from rfl, appendOpt_nil]
  | cons x l ih =>
    intro acc r h
    rw [List.foldlM_cons] at h
    cases hst : purgeStep research cfg recur dp dcs acc x with
    | error e => rw [hst] at h; simp [bind, Except.bind] at h
    | ok acc' =>
      rw [hst] at h
      dsimp only [bind, Except.bind] at h
      obtain ⟨hlvl, hc, hu⟩ := purgeStep_level hrec hst
      obtain ⟨hlvl', hc', hu'⟩ := ih acc' r h
      refine ⟨?_, hc'.trans hc, hu'.trans hu⟩
      rw [hlvl', hlvl, appendOpt_append]
      congr 1
      simp [purgeLevelOf]

/-- The three stored lists under the two level keys of one comparison level of
`dirdiff` are exactly the level contributions of the three sorted name
classes. -/
theorem dirdiff_level (research : String → String → Bool) (cfg : DiffCfg)
    (fuel : ℕ) (sp dp : FPath) (mts : ℚ) (szs : ℕ) (mtd : ℚ) (szd : ℕ)
    (scs dcs : FSList) (res : Diff)
    (h : dirdiff research cfg (fuel + 1) (some (sp, .dir mts szs scs))
      (some (dp, .dir mtd szd dcs)) = .ok res) :
    dmGet res.create sp =
      appendOpt none (createLevelOf research cfg scs (cmpLeftOnly scs dcs)) ∧
    dmGet res.update sp =
      appendOpt none (updateLevelOf research cfg scs dcs (cmpCommon scs dcs)) ∧
    dmGet res.purge dp =
      appendOpt none (purgeLevelOf research cfg dcs (cmpRightOnly scs dcs)) := by
  unfold dirdiff at h
  dsimp only [Option.getD] at h
  unfold processCmp at h
  simp only [bind, Except.bind] at h
  have hrec : recurKeys (dirdiff research cfg fuel) :=
    fun s' d' r hr => dirdiff_keys research cfg fuel s' d' r hr
  cases h1 : List.foldlM (createStep research cfg (dirdiff research cfg fuel) sp scs)
      Diff.mkEmpty (cmpLeftOnly scs dcs) with
  | error e => rw [h1] at h; simp at h
  | ok d1 =>
    rw [h1] at h
    dsimp only at h
    cases h2 : List.foldlM (updateStep research cfg (dirdiff research cfg fuel) sp dp scs dcs)
        d1 (cmpCommon scs dcs) with
    | error e => rw [h2] at h; simp at h
    | ok d2 =>
      rw [h2] at h
      dsimp only at h
      obtain ⟨f1lvl, f1u, f1p⟩ := foldlM_createStep_level hrec _ _ _ h1
      obtain ⟨f2lvl, f2c, f2p⟩ := foldlM_updateStep_level hrec _ _ _ h2
      obtain ⟨f3lvl, f3c, f3u⟩ := foldlM_purgeStep_level hrec _ _ _ h
      refine ⟨?_, ?_, ?_⟩
      · rw [f3c, f2c, f1lvl]; rfl
      · rw [f3u, f2lvl, f1u]; rfl
      · rw [f3lvl, f2p, f1p]; rfl

theorem appendOpt_none_getD (l : List Child) : (appendOpt none l).getD [] = l := by
  by_cases hl : l = [] <;> simp [appendOpt, hl]

theorem update_counts_create (d : Diff) (ops : List Op) :
    (d.update_counts ops).create = d.create := by
  unfold Diff.update_counts
  split_ifs <;> rfl

theorem update_counts_update (d : Diff) (ops : List Op) :
    (d.update_counts ops).update = d.update := by
  unfold Diff.update_counts
  split_ifs <;> rfl

theorem update_counts_purge (d : Diff) (ops : List Op) :
    (d.update_counts ops).purge = d.purge := by
  unfold Diff.update_counts
  split_ifs <;> rfl

theorem runM_eq_dirdiff {research : String → String → Bool} {cfg : DiffCfg}
    {w : World} {d : Diff} (h : Diff.runM research cfg w = .ok d) :
    ∃ d0, dirdiff research cfg (w.src.size + w.dst.size + 1)
        (some (⟨Side.src, []⟩, w.src)) (some (⟨Side.dst, []⟩, w.dst)) = .ok d0 ∧
      d.create = d0.create ∧ d.update = d0.update ∧ d.purge = d0.purge := by
  unfold Diff.runM at h
  cases hd : dirdiff research cfg (w.src.size + w.dst.size + 1)
      (some (⟨Side.src, []⟩, w.src)) (some (⟨Side.dst, []⟩, w.dst)) with
  | error e => rw [hd] at h; simp [bind, Except.bind] at h
  | ok d0 =>
    rw [hd] at h
    simp only [bind, Except.bind, pure, Except.pure, Except.ok.injEq] at h
    subst h
    exact ⟨d0, rfl, update_counts_create _ _, update_counts_update _ _,
      update_counts_purge _ _⟩

theorem mem_purgeLevelOf {research : String → String → Bool} {cfg : DiffCfg}
    {dcs : FSList} (l : List String) {x : String} {node : FSTree}
    (hx : dcs.lookup x = some node) :
    (⟨x, node.isDirB⟩ ∈ purgeLevelOf research cfg dcs l) ↔
      (x ∈ l ∧ diffFilter research cfg x none = true) := by
  unfold purgeLevelOf
  rw [List.mem_flatMap]
  constructor
  · rintro ⟨a, ha, hmem⟩
    cases hla : dcs.lookup a with
    | none => rw [hla] at hmem; simp at hmem
    | some nodea =>
      rw [hla] at hmem
      cases nodea <;>
      · dsimp only at hmem
        split_ifs at hmem with hf
        · simp at hmem
          obtain ⟨hax, _⟩ := hmem
          subst hax
          exact ⟨ha, hf⟩
        · simp at hmem
  · rintro ⟨hxl, hf⟩
    refine ⟨x, hxl, ?_⟩
    rw [hx]
    cases node <;> simp [FSTree.isDirB, hf]

theorem mem_updateLevelOf {research : String → String → Bool} {cfg : DiffCfg}
    {scs dcs : FSList} (l : List String) {x : String} {mtS : ℚ} {szS : ℕ}
    {dn : FSTree}
    (hs : scs.lookup x = some (.file mtS szS)) (hd : dcs.lookup x = some dn) :
    (⟨x, false⟩ ∈ updateLevelOf research cfg scs dcs l) ↔
      (x ∈ l ∧ ((cmp_mtime mtS dn.mtime cfg.timeprecision cfg.newer = true ∧
        diffFilter research cfg x (some szS) = true) ∨ cfg.forceUpdate = true)) := by
  unfold updateLevelOf
  rw [List.mem_flatMap]
  constructor
  · rintro ⟨a, ha, hmem⟩
    cases hla : scs.lookup a with
    | none => rw [hla] at hmem; simp at hmem
    | some nodea =>
      rw [hla] at hmem
      cases nodea with
      | dir mt sz cs =>
        cases hlda : dcs.lookup a <;> rw [hlda] at hmem <;> simp at hmem
      | file mta sza =>
        cases hlda : dcs.lookup a with
        | none => rw [hlda] at hmem; simp at hmem
        | some dna =>
          rw [hlda] at hmem
          dsimp only at hmem
          rw [List.mem_append] at hmem
          have hax : a = x := by
            rcases hmem with hmem | hmem <;>
            · split_ifs at hmem with hf
              · simp at hmem; exact hmem.symm
              · simp at hmem
          subst hax
          rw [hla] at hs
          rw [hlda] at hd
          cases hs
          cases hd
          refine ⟨ha, ?_⟩
          rcases hmem with hmem | hmem <;> split_ifs at hmem with hf
          · simp only [Bool.and_eq_true] at hf
            exact Or.inl hf
          · simp at hmem
          · exact Or.inr hf
          · simp at hmem
  · rintro ⟨hxl, hcond⟩
    refine ⟨x, hxl, ?_⟩
    rw [hs, hd]
    dsimp only
    rw [List.mem_append]
    rcases hcond with ⟨h1, h2⟩ | hfu
    · exact Or.inl (by simp [h1, h2])
    · exact Or.inr (by simp [hfu])

theorem not_mem_of_contains_false {l : List String} {x : String}
    (h : l.contains x = false) : x ∉ l := by
  intro hmem
  rw [List.contains_eq_any_beq] at h
  simp at h
  exact h x hmem rfl

theorem mem_cmpRightOnly {scs dcs : FSList} {x : String} {node : FSTree}
    (hdst : dcs.lookup x = some node) (hsrc : scs.lookup x = none)
    (hvis : dircmpIgnores.contains x = false) :
    x ∈ cmpRightOnly scs dcs := by
  unfold cmpRightOnly sortNames
  rw [List.mem_insertionSort]
  rw [List.mem_filter]
  refine ⟨?_, by simp [hsrc]⟩
  unfold visibleNames
  rw [List.mem_filter]
  have hnot : x ∉ dircmpIgnores := not_mem_of_contains_false hvis
  exact ⟨lookup_mem_names hdst, by simp [hnot]⟩

theorem mem_cmpCommon {scs dcs : FSList} {x : String} {snode dnode : FSTree}
    (hsrc : scs.lookup x = some snode) (hdst : dcs.lookup x = some dnode)
    (hvis : dircmpIgnores.contains x = false) :
    x ∈ cmpCommon scs dcs := by
  unfold cmpCommon sortNames
  rw [List.mem_insertionSort]
  rw [List.mem_filter]
  refine ⟨?_, by simp [hdst]⟩
  unfold visibleNames
  rw [List.mem_filter]
  have hnot : x ∉ dircmpIgnores := not_mem_of_contains_false hvis
  exact ⟨lookup_mem_names hsrc, by simp [hnot]⟩

/-! ## Claim C1: destination-only entries and the purge set -/

/-- C1 fails on the code: a destination-only directory targeted by an
exclusion pattern is NOT recorded as purge — `processCmp` applies
`__filter(x)` to right-only entries, directories included, so with
`excludes = ["oldsub"]` the destination-only directory `oldsub` yields an
empty purge mapping. -/
theorem C1_counterexample :
    ∃ d, Diff.runM (fun _ _ => false) { syncDefaultCfg with excludes := ["oldsub"] }
      ⟨emptyDir, .dir 0 0 (.cons "oldsub" (.dir 0 0 .nil) .nil)⟩ = .ok d ∧
      d.purge = [] :=
  ⟨_, rfl, rfl⟩

/-- C1, amended: a destination-only entry at a comparison level is recorded
in the purge mapping under that level's key iff the inclusion/exclusion
pattern filter accepts its bare name with no path supplied — so the size
limit never applies to purge, and a destination-only directory is recorded
independently of `includedirs` but still subject to the pattern filter. -/
theorem C1_theorem (research : String → String → Bool) (cfg : DiffCfg)
    (mts : ℚ) (szs : ℕ) (mtd : ℚ) (szd : ℕ) (scs dcs : FSList) (d : Diff)
    (x : String) (node : FSTree)
    (hrun : Diff.runM research cfg ⟨.dir mts szs scs, .dir mtd szd dcs⟩ = .ok d)
    (hdst : dcs.lookup x = some node) (hsrc : scs.lookup x = none)
    (hvis : dircmpIgnores.contains x = false) :
    (⟨x, node.isDirB⟩ ∈ (dmGet d.purge ⟨Side.dst, []⟩).getD []) ↔
      diffFilter research cfg x none = true := by
  obtain ⟨d0, hdir, _, _, hpurge⟩ := runM_eq_dirdiff hrun
  obtain ⟨_, _, hlvl⟩ := dirdiff_level research cfg _ _ _ _ _ _ _ _ _ _ hdir
  rw [hpurge, hlvl, appendOpt_none_getD]
  rw [mem_purgeLevelOf (cmpRightOnly scs dcs) hdst]
  have hmem := mem_cmpRightOnly hdst hsrc hvis
  simp [hmem]

/-- Concrete instantiation of the amended C1 theorem: a destination-only
file accepted by the default filter is in the purge list. -/
theorem C1_witness :
    (⟨"x", (FSTree.file 5 1).isDirB⟩ ∈
      (dmGet (⟨[], [], [(⟨Side.dst, []⟩, [⟨"x", false⟩])], 0, 0, 1, 1⟩ : Diff).purge
        ⟨Side.dst, []⟩).getD []) ↔
      diffFilter (fun _ _ => false) syncDefaultCfg "x" none = true :=
  C1_theorem (fun _ _ => false) syncDefaultCfg 0 0 0 0 .nil
    (.cons "x" (.file 5 1) .nil) ⟨[], [], [(⟨Side.dst, []⟩, [⟨"x", false⟩])], 0, 0, 1, 1⟩
    "x" (.file 5 1) rfl rfl rfl rfl

/-! ## Claim C7: when a common file is recorded as update -/

/-- C7: a common file is recorded as update exactly when the mtime comparison
of `utils._cmp_mtime` holds at the configured precision (strictly newer with
the newer-only policy, different otherwise) and the Path Filter accepts the
file, or — regardless of the timestamp comparison — when `forceUpdate` is
enabled. -/
theorem C7_theorem (research : String → String → Bool) (cfg : DiffCfg)
    (mts : ℚ) (szs : ℕ) (mtd : ℚ) (szd : ℕ) (scs dcs : FSList) (d : Diff)
    (x : String) (mtS : ℚ) (szS : ℕ) (dn : FSTree)
    (hrun : Diff.runM research cfg ⟨.dir mts szs scs, .dir mtd szd dcs⟩ = .ok d)
    (hsrc : scs.lookup x = some (.file mtS szS))
    (hdst : dcs.lookup x = some dn)
    (hvis : dircmpIgnores.contains x = false) :
    (⟨x, false⟩ ∈ (dmGet d.update ⟨Side.src, []⟩).getD []) ↔
      ((cmp_mtime mtS dn.mtime cfg.timeprecision cfg.newer = true ∧
        diffFilter research cfg x (some szS) = true) ∨ cfg.forceUpdate = true) := by
  obtain ⟨d0, hdir, _, hupdate, _⟩ := runM_eq_dirdiff hrun
  obtain ⟨_, hlvl, _⟩ := dirdiff_level research cfg _ _ _ _ _ _ _ _ _ _ hdir
  rw [hupdate, hlvl, appendOpt_none_getD]
  rw [mem_updateLevelOf (cmpCommon scs dcs) hsrc hdst]
  have hmem := mem_cmpCommon hsrc hdst hvis
  simp [hmem]

/-- Concrete instantiation of C7: a strictly newer common file under the
default configuration is recorded as update. -/
theorem C7_witness :
    (⟨"x", false⟩ ∈
      (dmGet (⟨[], [(⟨Side.src, []⟩, [⟨"x", false⟩])], [], 0, 1, 0, 1⟩ : Diff).update
        ⟨Side.src, []⟩).getD []) ↔
      ((cmp_mtime 10 (FSTree.file 0 1).mtime syncDefaultCfg.timeprecision
          syncDefaultCfg.newer = true ∧
        diffFilter (fun _ _ => false) syncDefaultCfg "x" (some 1) = true) ∨
        syncDefaultCfg.forceUpdate = true) :=
  C7_theorem (fun _ _ => false) syncDefaultCfg 0 0 0 0
    (.cons "x" (.file 10 1) .nil) (.cons "x" (.file 0 1) .nil)
    ⟨[], [(⟨Side.src, []⟩, [⟨"x", false⟩])], [], 0, 1, 0, 1⟩
    "x" 10 1 (.file 0 1) (by rfl) rfl rfl rfl

/-! ## Claim C4: duplicate-freeness of the stored child lists -/

/-- The keys of a mapping are pairwise distinct (Python dict semantics). -/
def dmNodupKeys (m : DirMap) : Prop := (m.map (fun e => e.1)).Nodup

theorem dmNodupKeys_dmSet {m : DirMap} {k : FPath} {v : List Child}
    (h : dmNodupKeys m) : dmNodupKeys (dmSet m k v) := by
  induction m with
  | nil => simp [dmSet, dmNodupKeys]
  | cons e r ih =>
    unfold dmNodupKeys at h
    rw [List.map_cons, List.nodup_cons] at h
    by_cases he : e.1 = k
    · unfold dmNodupKeys
      simp only [dmSet, he, if_pos, List.map_cons, List.nodup_cons]
      exact ⟨he ▸ h.1, h.2⟩
    · unfold dmNodupKeys
      simp only [dmSet, he, ite_false, List.map_cons, List.nodup_cons]
      refine ⟨?_, ih h.2⟩
      intro hmem
      rcases List.mem_map.1 hmem with ⟨kv, hkv, hkv1⟩
      rcases dmSet_mem hkv with h' | h'
      · exact he (by rw [h'] at hkv1; exact hkv1.symm)
      · exact h.1 (List.mem_map.2 ⟨kv, h', hkv1⟩)

theorem dmNodupKeys_dmAdd {m : DirMap} {p : FPath} {b : Bool}
    (h : dmNodupKeys m) : dmNodupKeys (dmAdd m p b) := by
  unfold dmAdd
  cases p.segs.getLast? with
  | none => exact h
  | some base =>
    cases dmGet m ⟨p.side, p.segs.dropLast⟩ <;> exact dmNodupKeys_dmSet h

theorem dmNodupKeys_dmUpdate {m o : DirMap}
    (h : dmNodupKeys m) : dmNodupKeys (dmUpdate m o) := by
  unfold dmUpdate
  induction o generalizing m with
  | nil => exact h
  | cons e r ih => exact ih (dmNodupKeys_dmSet h)

theorem dmGet_of_mem {m : DirMap} {kv : FPath × List Child}
    (hn : dmNodupKeys m) (h : kv ∈ m) : dmGet m kv.1 = some kv.2 := by
  induction m with
  | nil => simp at h
  | cons e r ih =>
    unfold dmNodupKeys at hn
    rw [List.map_cons, List.nodup_cons] at hn
    rcases List.mem_cons.1 h with h' | h'
    · subst h'
      simp [dmGet]
    · have hne : e.1 ≠ kv.1 := by
        intro he
        exact hn.1 (List.mem_map.2 ⟨kv, h', he.symm⟩)
      simp only [dmGet, hne, ite_false]
      exact ih hn.2 h'

/-- Well-formedness of the subtree found by a lookup. -/
theorem wfb_lookup : ∀ {cs : FSList} {x : String} {t : FSTree},
    cs.wfb = true → cs.lookup x = some t → t.wfb = true
  | .nil, x, t, _, h => by simp [FSList.lookup] at h
  | .cons n t' r, x, t, hwf, h => by
    simp only [FSList.wfb, Bool.and_eq_true] at hwf
    by_cases hn : n = x
    · simp only [FSList.lookup, hn, if_pos, Option.some.injEq] at h
      exact h ▸ hwf.1.2
    · simp only [FSList.lookup, hn, ite_false] at h
      exact wfb_lookup hwf.2 h

theorem wfb_dir_children {mt : ℚ} {sz : ℕ} {cs : FSList}
    (h : (FSTree.dir mt sz cs).wfb = true) : cs.wfb = true := h

theorem emptyDir_wfb : emptyDir.wfb = true := rfl

theorem sortNames_nodup {l : List String} (h : l.Nodup) : (sortNames l).Nodup :=
  (List.perm_insertionSort _ l).symm.nodup h

theorem cmpLeftOnly_nodup {scs dcs : FSList} (hs : scs.wfb = true) :
    (cmpLeftOnly scs dcs).Nodup :=
  sortNames_nodup (((names_nodup_of_wfb hs).filter _).filter _)

theorem cmpCommon_nodup {scs dcs : FSList} (hs : scs.wfb = true) :
    (cmpCommon scs dcs).Nodup :=
  sortNames_nodup (((names_nodup_of_wfb hs).filter _).filter _)

theorem cmpRightOnly_nodup {scs dcs : FSList} (hd : dcs.wfb = true) :
    (cmpRightOnly scs dcs).Nodup :=
  sortNames_nodup (((names_nodup_of_wfb hd).filter _).filter _)

theorem levelList_nodup {f : String → List Child} {l : List String}
    (hl : l.Nodup) (hname : ∀ x c, c ∈ f x → c.name = x)
    (hf : ∀ x, ((f x).map Child.name).Nodup) :
    ((l.flatMap f).map Child.name).Nodup := by
  induction l with
  | nil => simp
  | cons x l ih =>
    rw [List.flatMap_cons, List.map_append]
    rw [List.nodup_cons] at hl
    refine (hf x).append (ih hl.2) ?_
    intro nm hcx hcl
    rcases List.mem_map.1 hcx with ⟨c, hc, rfl⟩
    rcases List.mem_map.1 hcl with ⟨c', hc', hcc⟩
    rcases List.mem_flatMap.1 hc' with ⟨y, hy, hcy⟩
    exact hl.1 ((hname x c hc) ▸ hcc ▸ (hname y c' hcy) ▸ hy)

theorem createLevelOf_nodup (research : String → String → Bool) (cfg : DiffCfg)
    (scs : FSList) {l : List String} (hl : l.Nodup) :
    ((createLevelOf research cfg scs l).map Child.name).Nodup := by
  refine levelList_nodup hl ?_ ?_
  · intro x c hc
    cases hx : scs.lookup x with
    | none => rw [hx] at hc; simp at hc
    | some node =>
      rw [hx] at hc
      cases node <;>
      · dsimp only at hc
        split_ifs at hc <;> simp at hc <;> simp [hc]
  · intro x
    cases hx : scs.lookup x with
    | none => exact List.nodup_nil
    | some node =>
      cases node <;>
      · dsimp only
        split_ifs <;> simp

theorem updateLevelOf_nodup (research : String → String → Bool) (cfg : DiffCfg)
    (scs dcs : FSList) (hforce : cfg.forceUpdate = false) {l : List String}
    (hl : l.Nodup) : ((updateLevelOf research cfg scs dcs l).map Child.name).Nodup := by
  refine levelList_nodup hl ?_ ?_
  · intro x c hc
    cases hx : scs.lookup x with
    | none => rw [hx] at hc; simp at hc
    | some node =>
      rw [hx] at hc
      cases node with
      | dir mt sz cs =>
        cases hd : dcs.lookup x <;> rw [hd] at hc <;> simp at hc
      | file mt sz =>
        cases hd : dcs.lookup x with
        | none => rw [hd] at hc; simp at hc
        | some dn =>
          rw [hd] at hc
          dsimp only at hc
          rw [List.mem_append] at hc
          rcases hc with hc | hc <;> split_ifs at hc <;> first | contradiction | simp_all
  · intro x
    cases hx : scs.lookup x with
    | none => exact List.nodup_nil
    | some node =>
      cases node with
      | dir mt sz cs =>
        cases hd : dcs.lookup x <;> exact List.nodup_nil
      | file mt sz =>
        cases hd : dcs.lookup x with
        | none => exact List.nodup_nil
        | some dn =>
          dsimp only
          split_ifs <;> simp_all

theorem purgeLevelOf_nodup (research : String → String → Bool) (cfg : DiffCfg)
    (dcs : FSList) {l : List String} (hl : l.Nodup) :
    ((purgeLevelOf research cfg dcs l).map Child.name).Nodup := by
  refine levelList_nodup hl ?_ ?_
  · intro x c hc
    cases hx : dcs.lookup x with
    | none => rw [hx] at hc; simp at hc
    | some node =>
      rw [hx] at hc
      cases node <;>
      · dsimp only at hc
        split_ifs at hc <;> simp at hc <;> simp [hc]
  · intro x
    cases hx : dcs.lookup x with
    | none => exact List.nodup_nil
    | some node =>
      cases node <;>
      · dsimp only
        split_ifs <;> simp

/-- Every stored child list of every mapping is duplicate-free. -/
def valuesNodupTriple (d : Diff) : Prop :=
  (∀ kv ∈ d.create, (kv.2.map Child.name).Nodup) ∧
  (∀ kv ∈ d.update, (kv.2.map Child.name).Nodup) ∧
  (∀ kv ∈ d.purge, (kv.2.map Child.name).Nodup)

/-- The composite invariant carried through one comparison level: distinct
keys, and duplicate-free values at every key other than the level keys. -/
def nodupInv (sp dp : FPath) (d : Diff) : Prop :=
  (dmNodupKeys d.create ∧ dmNodupKeys d.update ∧ dmNodupKeys d.purge) ∧
  (∀ kv ∈ d.create, kv.1 ≠ sp → (kv.2.map Child.name).Nodup) ∧
  (∀ kv ∈ d.update, kv.1 ≠ sp → (kv.2.map Child.name).Nodup) ∧
  (∀ kv ∈ d.purge, kv.1 ≠ dp → (kv.2.map Child.name).Nodup)

/-- The recursion specification for the duplicate-freeness pass. -/
def recurNodup (recur : Option (FPath × FSTree) → Option (FPath × FSTree) →
    Except PyErr Diff) : Prop :=
  ∀ s? d? r, recur s? d? = .ok r →
    (s?.getD (⟨Side.tmp, []⟩, emptyDir)).2.wfb = true →
    (d?.getD (⟨Side.tmp, []⟩, emptyDir)).2.wfb = true →
    valuesNodupTriple r

theorem nodupInv_dmAdd_level {m : DirMap} {sp : FPath} (x : String) (b : Bool)
    {kv : FPath × List Child} (hkv : kv ∈ dmAdd m ⟨sp.side, sp.segs ++ [x]⟩ b)
    (hne : kv.1 ≠ sp) : kv ∈ m := by
  rcases dmAdd_mem hkv with h' | ⟨base, _, heq⟩
  · exact h'
  · exact absurd (by rw [heq]; simp [List.dropLast_concat]) hne

theorem createStep_nodupInv {research : String → String → Bool} {cfg : DiffCfg}
    {recur} {sp dp : FPath} {scs : FSList} {acc : Diff} {x : String} {r : Diff}
    (hrecN : recurNodup recur) (hscs : scs.wfb = true)
    (hP : nodupInv sp dp acc)
    (h : createStep research cfg recur sp scs acc x = .ok r) :
    nodupInv sp dp r := by
  obtain ⟨⟨hkc, hku, hkp⟩, hvc, hvu, hvp⟩ := hP
  unfold createStep at h
  cases hl : scs.lookup x with
  | none => rw [hl] at h; cases h; exact ⟨⟨hkc, hku, hkp⟩, hvc, hvu, hvp⟩
  | some node =>
    rw [hl] at h
    cases node with
    | file mt sz =>
      dsimp only at h
      simp only [pure, Except.pure, Except.ok.injEq] at h
      subst h
      split_ifs
      · exact ⟨⟨dmNodupKeys_dmAdd hkc, hku, hkp⟩,
          fun kv hkv hne => hvc kv (nodupInv_dmAdd_level x false hkv hne) hne, hvu, hvp⟩
      · exact ⟨⟨hkc, hku, hkp⟩, hvc, hvu, hvp⟩
    | dir mt sz cs =>
      dsimp only at h
      have hP1 : nodupInv sp dp (if cfg.includedirs && diffFilter research cfg x (some sz)
          then acc.addOpK .create ⟨sp.side, sp.segs ++ [x]⟩ true else acc) := by
        split_ifs
        · exact ⟨⟨dmNodupKeys_dmAdd hkc, hku, hkp⟩,
            fun kv hkv hne => hvc kv (nodupInv_dmAdd_level x true hkv hne) hne, hvu, hvp⟩
        · exact ⟨⟨hkc, hku, hkp⟩, hvc, hvu, hvp⟩
      obtain ⟨⟨hkc1, hku1, hkp1⟩, hvc1, hvu1, hvp1⟩ := hP1
      by_cases hr : cfg.recursive = true
      · rw [if_pos hr] at h
        simp only [bind, Except.bind] at h
        cases hrecur : recur (some (⟨sp.side, sp.segs ++ [x]⟩, .dir mt sz cs)) none with
        | error e => rw [hrecur] at h; simp at h
        | ok d =>
          rw [hrecur] at h
          simp only [pure, Except.pure, Except.ok.injEq] at h
          subst h
          have hd := hrecN _ _ _ hrecur (wfb_lookup hscs hl) emptyDir_wfb
          refine ⟨⟨dmNodupKeys_dmUpdate hkc1, hku1, hkp1⟩, ?_, hvu1, hvp1⟩
          intro kv hkv hne
          rcases dmUpdate_mem hkv with h' | h'
          · exact hvc1 kv h' hne
          · exact hd.1 kv h'
      · rw [if_neg hr] at h
        simp only [pure, Except.pure, Except.ok.injEq] at h
        subst h
        exact ⟨⟨hkc1, hku1, hkp1⟩, hvc1, hvu1, hvp1⟩

theorem updateStep_nodupInv {research : String → String → Bool} {cfg : DiffCfg}
    {recur} {sp dp : FPath} {scs dcs : FSList} {acc : Diff} {x : String} {r : Diff}
    (hrecN : recurNodup recur) (hscs : scs.wfb = true) (hdcs : dcs.wfb = true)
    (hP : nodupInv sp dp acc)
    (h : updateStep research cfg recur sp dp scs dcs acc x = .ok r) :
    nodupInv sp dp r := by
  obtain ⟨⟨hkc, hku, hkp⟩, hvc, hvu, hvp⟩ := hP
  unfold updateStep at h
  cases hls : scs.lookup x with
  | none => rw [hls] at h; cases h; exact ⟨⟨hkc, hku, hkp⟩, hvc, hvu, hvp⟩
  | some snode =>
    rw [hls] at h
    cases hld : dcs.lookup x with
    | none =>
      rw [hld] at h
      cases snode <;> (cases h; exact ⟨⟨hkc, hku, hkp⟩, hvc, hvu, hvp⟩)
    | some dnode =>
      rw [hld] at h
      cases snode with
      | file mtS szS =>
        dsimp only at h
        simp only [pure, Except.pure, Except.ok.injEq] at h
        subst h
        split_ifs
        · exact ⟨⟨hkc, dmNodupKeys_dmAdd (dmNodupKeys_dmAdd hku), hkp⟩, hvc,
            fun kv hkv hne => hvu kv
              (nodupInv_dmAdd_level x false (nodupInv_dmAdd_level x false hkv hne) hne) hne,
            hvp⟩
        · exact ⟨⟨hkc, dmNodupKeys_dmAdd hku, hkp⟩, hvc,
            fun kv hkv hne => hvu kv (nodupInv_dmAdd_level x false hkv hne) hne, hvp⟩
        · exact ⟨⟨hkc, dmNodupKeys_dmAdd hku, hkp⟩, hvc,
            fun kv hkv hne => hvu kv (nodupInv_dmAdd_level x false hkv hne) hne, hvp⟩
        · exact ⟨⟨hkc, hku, hkp⟩, hvc, hvu, hvp⟩
      | dir mtS szS cs =>
        dsimp only at h
        by_cases hr : cfg.recursive = true
        · rw [if_pos hr] at h
          simp only [bind, Except.bind] at h
          cases hrecur : recur (some (⟨sp.side, sp.segs ++ [x]⟩, .dir mtS szS cs))
              (some (⟨dp.side, dp.segs ++ [x]⟩, dnode)) with
          | error e => rw [hrecur] at h; simp at h
          | ok d =>
            rw [hrecur] at h
            simp only [pure, Except.pure, Except.ok.injEq] at h
            subst h
            have hd := hrecN _ _ _ hrecur (wfb_lookup hscs hls) (wfb_lookup hdcs hld)
            refine ⟨⟨dmNodupKeys_dmUpdate hkc, dmNodupKeys_dmUpdate hku,
              dmNodupKeys_dmUpdate hkp⟩, ?_, ?_, ?_⟩
            · intro kv hkv hne
              rcases dmUpdate_mem hkv with h' | h'
              · exact hvc kv h' hne
              · exact hd.1 kv h'
            · intro kv hkv hne
              rcases dmUpdate_mem hkv with h' | h'
              · exact hvu kv h' hne
              · exact hd.2.1 kv h'
            · intro kv hkv hne
              rcases dmUpdate_mem hkv with h' | h'
              · exact hvp kv h' hne
              · exact hd.2.2 kv h'
        · rw [if_neg hr] at h
          cases h
          exact ⟨⟨hkc, hku, hkp⟩, hvc, hvu, hvp⟩

theorem purgeStep_nodupInv {research : String → String → Bool} {cfg : DiffCfg}
    {recur} {sp dp : FPath} {dcs : FSList} {acc : Diff} {x : String} {r : Diff}
    (hrecN : recurNodup recur) (hdcs : dcs.wfb = true)
    (hP : nodupInv sp dp acc)
    (h : purgeStep research cfg recur dp dcs acc x = .ok r) :
    nodupInv sp dp r := by
  obtain ⟨⟨hkc, hku, hkp⟩, hvc, hvu, hvp⟩ := hP
  unfold purgeStep at h
  cases hl : dcs.lookup x with
  | none => rw [hl] at h; cases h; exact ⟨⟨hkc, hku, hkp⟩, hvc, hvu, hvp⟩
  | some node =>
    rw [hl] at h
    cases node with
    | file mt sz =>
      dsimp only at h
      simp only [pure, Except.pure, Except.ok.injEq] at h
      subst h
      split_ifs
      · exact ⟨⟨hkc, hku, dmNodupKeys_dmAdd hkp⟩, hvc, hvu,
          fun kv hkv hne => hvp kv (nodupInv_dmAdd_level x false hkv hne) hne⟩
      · exact ⟨⟨hkc, hku, hkp⟩, hvc, hvu, hvp⟩
    | dir mt sz cs =>
      dsimp only at h
      have hP1 : nodupInv sp dp (if diffFilter research cfg x none
          then acc.addOpK .purge ⟨dp.side, dp.segs ++ [x]⟩ true else acc) := by
        split_ifs
        · exact ⟨⟨hkc, hku, dmNodupKeys_dmAdd hkp⟩, hvc, hvu,
            fun kv hkv hne => hvp kv (nodupInv_dmAdd_level x true hkv hne) hne⟩
        · exact ⟨⟨hkc, hku, hkp⟩, hvc, hvu, hvp⟩
      obtain ⟨⟨hkc1, hku1, hkp1⟩, hvc1, hvu1, hvp1⟩ := hP1
      by_cases hr : cfg.recursive = true
      · rw [if_pos hr] at h
        simp only [bind, Except.bind] at h
        cases hrecur : recur none (some (⟨dp.side, dp.segs ++ [x]⟩, .dir mt sz cs)) with
        | error e => rw [hrecur] at h; simp at h
        | ok d =>
          rw [hrecur] at h
          simp only [pure, Except.pure, Except.ok.injEq] at h
          subst h
          have hd := hrecN _ _ _ hrecur emptyDir_wfb (wfb_lookup hdcs hl)
          refine ⟨⟨hkc1, hku1, dmNodupKeys_dmUpdate hkp1⟩, hvc1, hvu1, ?_⟩
          intro kv hkv hne
          rcases dmUpdate_mem hkv with h' | h'
          · exact hvp1 kv h' hne
          · exact hd.2.2 kv h'
      · rw [if_neg hr] at h
        simp only [pure, Except.pure, Except.ok.injEq] at h
        subst h
        exact ⟨⟨hkc1, hku1, hkp1⟩, hvc1, hvu1, hvp1⟩

theorem processCmp_nodupInv {research : String → String → Bool} {cfg : DiffCfg}
    {recur} {sp dp : FPath} {scs dcs : FSList} {res : Diff}
    (hrecN : recurNodup recur) (hscs : scs.wfb = true) (hdcs : dcs.wfb = true)
    (h : processCmp research cfg recur sp dp scs dcs = .ok res) :
    nodupInv sp dp res := by
  unfold processCmp at h
  simp only [bind, Except.bind] at h
  cases h1 : (cmpLeftOnly scs dcs).foldlM (createStep research cfg recur sp scs)
      Diff.mkEmpty with
  | error e => rw [h1] at h; simp at h
  | ok d1 =>
    rw [h1] at h
    dsimp only at h
    cases h2 : (cmpCommon scs dcs).foldlM
        (updateStep research cfg recur sp dp scs dcs) d1 with
    | error e => rw [h2] at h; simp at h
    | ok d2 =>
      rw [h2] at h
      dsimp only at h
      have hP0 : nodupInv sp dp Diff.mkEmpty := by
        refine ⟨⟨?_, ?_, ?_⟩, ?_, ?_, ?_⟩ <;> simp [Diff.mkEmpty, dmNodupKeys]
      have hP1 : nodupInv sp dp d1 :=
        foldlM_inv (nodupInv sp dp) h1 hP0
          (fun acc a r' _ hP hst => createStep_nodupInv hrecN hscs hP hst)
      have hP2 : nodupInv sp dp d2 :=
        foldlM_inv (nodupInv sp dp) h2 hP1
          (fun acc a r' _ hP hst => updateStep_nodupInv hrecN hscs hdcs hP hst)
      exact foldlM_inv (nodupInv sp dp) h hP2
        (fun acc a r' _ hP hst => purgeStep_nodupInv hrecN hdcs hP hst)

/-- Duplicate-freeness of every stored child list of every mapping the engine
produces, for well-formed trees and `forceUpdate` off. -/
theorem dirdiff_nodup (research : String → String → Bool) (cfg : DiffCfg)
    (hforce : cfg.forceUpdate = false) :
    ∀ (fuel : ℕ) (s? d? : Option (FPath × FSTree)) (res : Diff),
    dirdiff research cfg fuel s? d? = .ok res →
    (s?.getD (⟨Side.tmp, []⟩, emptyDir)).2.wfb = true →
    (d?.getD (⟨Side.tmp, []⟩, emptyDir)).2.wfb = true →
    valuesNodupTriple res := by
  intro fuel
  induction fuel with
  | zero => intro s? d? res h _ _; simp [dirdiff] at h
  | succ fuel ih =>
    intro s? d? res h hws hwd
    have hrecN : recurNodup (dirdiff research cfg fuel) :=
      fun s' d' r hr hw1 hw2 => ih s' d' r hr hw1 hw2
    have h' : dirdiff research cfg (fuel + 1)
        (some (s?.getD (⟨Side.tmp, []⟩, emptyDir)))
        (some (d?.getD (⟨Side.tmp, []⟩, emptyDir))) = .ok res := h
    cases hsd : s?.getD (⟨Side.tmp, []⟩, emptyDir) with
    | mk sp sT =>
    cases hdd : d?.getD (⟨Side.tmp, []⟩, emptyDir) with
    | mk dp dT =>
    rw [hsd, hdd] at h'
    rw [hsd] at hws
    rw [hdd] at hwd
    dsimp only at hws hwd
    cases sT with
    | file mt sz => simp [dirdiff] at h'
    | dir mts szs scs =>
    cases dT with
    | file mt sz => simp [dirdiff] at h'
    | dir mtd szd dcs =>
    have hpc : processCmp research cfg (dirdiff research cfg fuel) sp dp scs dcs
        = .ok res := by
      have hcopy := h'
      unfold dirdiff at hcopy
      dsimp only [Option.getD] at hcopy
      exact hcopy
    obtain ⟨hlc, hlu, hlp⟩ :=
      dirdiff_level research cfg fuel sp dp mts szs mtd szd scs dcs res h'
    obtain ⟨⟨hkc, hku, hkp⟩, hvc, hvu, hvp⟩ :=
      processCmp_nodupInv hrecN hws hwd hpc
    refine ⟨?_, ?_, ?_⟩
    · intro kv hkv
      by_cases hk : kv.1 = sp
      · have hg := dmGet_of_mem hkc hkv
        rw [hk, hlc] at hg
        have hkv2 : kv.2 = createLevelOf research cfg scs (cmpLeftOnly scs dcs) := by
          by_cases hL : createLevelOf research cfg scs (cmpLeftOnly scs dcs) = []
          · rw [hL] at hg; simp [appendOpt] at hg
          · simp only [appendOpt, hL, ite_false, Option.getD, List.nil_append,
              Option.some.injEq] at hg
            exact hg.symm
        rw [hkv2]
        exact createLevelOf_nodup research cfg scs (cmpLeftOnly_nodup hws)
      · exact hvc kv hkv hk
    · intro kv hkv
      by_cases hk : kv.1 = sp
      · have hg := dmGet_of_mem hku hkv
        rw [hk, hlu] at hg
        have hkv2 : kv.2 = updateLevelOf research cfg scs dcs (cmpCommon scs dcs) := by
          by_cases hL : updateLevelOf research cfg scs dcs (cmpCommon scs dcs) = []
          · rw [hL] at hg; simp [appendOpt] at hg
          · simp only [appendOpt, hL, ite_false, Option.getD, List.nil_append,
              Option.some.injEq] at hg
            exact hg.symm
        rw [hkv2]
        exact updateLevelOf_nodup research cfg scs dcs hforce (cmpCommon_nodup hws)
      · exact hvu kv hkv hk
    · intro kv hkv
      by_cases hk : kv.1 = dp
      · have hg := dmGet_of_mem hkp hkv
        rw [hk, hlp] at hg
        have hkv2 : kv.2 = purgeLevelOf research cfg dcs (cmpRightOnly scs dcs) := by
          by_cases hL : purgeLevelOf research cfg dcs (cmpRightOnly scs dcs) = []
          · rw [hL] at hg; simp [appendOpt] at hg
          · simp only [appendOpt, hL, ite_false, Option.getD, List.nil_append,
              Option.some.injEq] at hg
            exact hg.symm
        rw [hkv2]
        exact purgeLevelOf_nodup research cfg dcs (cmpRightOnly_nodup hwd)
      · exact hvp kv hkv hk

/-- C4 fails as stated: with `forceUpdate` enabled, a common file that also
passes the mtime test and the Path Filter is appended twice to the update list
of its parent (`processCmp` runs both the timestamp branch and the
`forceUpdate` branch, each calling `add_update`), so the stored child list
holds the same name twice. -/
theorem C4_counterexample :
    ∃ d, Diff.runM (fun _ _ => false) { syncDefaultCfg with forceUpdate := true }
      ⟨.dir 0 0 (.cons "x" (.file 10 1) .nil), .dir 0 0 (.cons "x" (.file 0 1) .nil)⟩
      = .ok d ∧
    ¬ (∀ kv ∈ d.update, (kv.2.map Child.name).Nodup) :=
  ⟨_, rfl, by decide⟩

/-- C4, amended: in every ChangeSet `run()` produces from well-formed trees
with `forceUpdate` disabled, no child name occurs more than once in the child
list stored under a single parent of a single mapping; with `forceUpdate`
enabled a common file passing the timestamp test is recorded twice. -/
theorem C4_theorem (research : String → String → Bool) (cfg : DiffCfg)
    (w : World) (d : Diff) (hforce : cfg.forceUpdate = false)
    (hsrc : w.src.wfb = true) (hdst : w.dst.wfb = true)
    (h : Diff.runM research cfg w = .ok d) :
    valuesNodupTriple d := by
  obtain ⟨d0, hd0, hc, hu, hp⟩ := runM_eq_dirdiff h
  have hv := dirdiff_nodup research cfg hforce _ _ _ _ hd0 hsrc hdst
  unfold valuesNodupTriple at hv ⊢
  rw [hc, hu, hp]
  exact hv

/-- Concrete instantiation of the amended C4 theorem: a default-configuration
run on a one-file pair produces duplicate-free child lists. -/
theorem C4_witness :
    Diff.runM (fun _ _ => false) syncDefaultCfg
      ⟨.dir 0 0 (.cons "x" (.file 10 1) .nil), .dir 0 0 (.cons "x" (.file 0 1) .nil)⟩
      = .ok ⟨[], [(⟨Side.src, []⟩, [⟨"x", false⟩])], [], 0, 1, 0, 1⟩ ∧
    valuesNodupTriple ⟨[], [(⟨Side.src, []⟩, [⟨"x", false⟩])], [], 0, 1, 0, 1⟩ :=
  ⟨rfl, C4_theorem (fun _ _ => false) syncDefaultCfg
    ⟨.dir 0 0 (.cons "x" (.file 10 1) .nil), .dir 0 0 (.cons "x" (.file 0 1) .nil)⟩
    ⟨[], [(⟨Side.src, []⟩, [⟨"x", false⟩])], [], 0, 1, 0, 1⟩ rfl (by rfl) (by rfl)
    (by rfl)⟩

/-! ## Claim C2: idempotence of a fully successful sync -/

/-- C2 fails on the code: diffing, fully syncing with every per-item operation
succeeding, then diffing again does not always leave create and update empty.
With a source file facing a destination directory of the same name, the diff
records an update, the update phase's `shutil.copy2(src, dst)` sees an
existing directory at `dst`, copies the file INTO it under the source base
name, and records `dst` as a success — but the destination path still holds
the old directory, so the second diff records the same update again.  Here the
whole pipeline is evaluated on such a pair under default settings: the run
reports one update pass and no failure in any phase, yet the second diff's
update mapping is nonempty. -/
theorem C2_theorem :
    ∃ d1 r d2,
      Diff.runM (fun _ _ => false) syncDefaultCfg
        ⟨.dir 0 0 (.cons "x" (.file 10 1) .nil),
         .dir 0 0 (.cons "x" (.dir 0 0 .nil) .nil)⟩ = .ok d1 ∧
      Sync.runwithdiff ⟨true, true, true, false, false⟩ false 0 d1
        ⟨.dir 0 0 (.cons "x" (.file 10 1) .nil),
         .dir 0 0 (.cons "x" (.dir 0 0 .nil) .nil)⟩ Stats.reset = .ok r ∧
      r.2.createfails = [] ∧ r.2.updatefails = [] ∧ r.2.purgefails = [] ∧
      r.2.updates = [⟨Side.dst, ["x"]⟩] ∧
      Diff.runM (fun _ _ => false) syncDefaultCfg r.1 = .ok d2 ∧
      d2.update ≠ [] :=
  ⟨_, _, _, rfl, rfl, rfl, rfl, rfl, rfl, rfl, by decide⟩

end Filesync
